import Mathlib

/-!
# Graph Studio — verification of the persistence and session logic

A shallow embedding of the graph editor's renderer logic
(`src/renderer/App.tsx`) and of the note-file IPC handlers
(`electron/main.js`), together with proofs about serialization,
loading, autosave, deletion and layout.

JavaScript strings are modelled as Lean `String`s, JS objects/records as
association lists, machine numbers as exact integers (the program never
uses numeric values except for zero-ness tests and layout arithmetic),
and the browser's `JSON.parse` / `JSON.stringify` builtins as an
executable parser and printer over a `Json` value type.
-/

namespace GraphStudio

/-- A JSON value, the result of the external `JSON.parse` builtin.
Numbers are kept exactly as mantissa × 10^exponent (IEEE rounding is
irrelevant here: the program only ever tests numbers for truthiness).
JSON strings containing lone UTF-16 surrogates — representable in
JavaScript but not as Lean scalar-value strings — are modelled with
U+FFFD in their place; no string the program produces contains them. -/
inductive Json where
  | null : Json
  | bool : Bool → Json
  | num : Int → Int → Json
  | str : String → Json
  | arr : List Json → Json
  | obj : List (String × Json) → Json

/-- The left brace character (written by code point throughout). -/
def lbrace : Char := Char.ofNat 123

/-- The right brace character. -/
def rbrace : Char := Char.ofNat 125

/-- JSON insignificant whitespace (ECMA-404 / `JSON.parse`). -/
def isWs (c : Char) : Bool := c = ' ' || c = Char.ofNat 9 || c = Char.ofNat 10 || c = Char.ofNat 13

/-- Skip insignificant whitespace. -/
def skipWs : List Char → List Char
  | [] => []
  | c :: cs => if isWs c then skipWs cs else c :: cs

/-- Value of a hexadecimal digit character, if any. -/
def hexVal (c : Char) : Option Nat :=
  if '0' ≤ c ∧ c ≤ '9' then some (c.toNat - 48)
  else if 'a' ≤ c ∧ c ≤ 'f' then some (c.toNat - 87)
  else if 'A' ≤ c ∧ c ≤ 'F' then some (c.toNat - 55)
  else none

/-- Single-character JSON string escapes. -/
def escCode : Char → Option Char
  | '"' => some '"'
  | '\\' => some '\\'
  | '/' => some '/'
  | 'b' => some (Char.ofNat 8)
  | 'f' => some (Char.ofNat 12)
  | 'n' => some (Char.ofNat 10)
  | 'r' => some (Char.ofNat 13)
  | 't' => some (Char.ofNat 9)
  | _ => none

/-- One lexical unit of a JSON string body: a decoded plain/escape
character, or the raw 16-bit value of a `\uXXXX` escape. -/
inductive SChunk where
  | ch : Char → SChunk
  | u16 : Nat → SChunk

/-- Tokenize the body of a JSON string literal (the opening quote
already consumed); returns the units and the input after the closing
quote.  Mirrors `JSON.parse`'s string grammar: raw control characters
are rejected and escapes are decoded (`\uXXXX` still unpaired here). -/
def strChunks : List Char → Option (List SChunk × List Char)
  | [] => none
  | c :: rest =>
    if c = '"' then some ([], rest)
    else if c = '\\' then
      match rest with
      | [] => none
      | e :: rest2 =>
        if e = 'u' then
          match rest2 with
          | a :: b :: c2 :: d2 :: r3 =>
            match hexVal a, hexVal b, hexVal c2, hexVal d2 with
            | some h1, some h2, some h3, some h4 =>
              (strChunks r3).map (fun p =>
                (.u16 (((h1 * 16 + h2) * 16 + h3) * 16 + h4) :: p.1, p.2))
            | _, _, _, _ => none
          | _ => none
        else
          match escCode e with
          | some d => (strChunks rest2).map (fun p => (.ch d :: p.1, p.2))
          | none => none
    else if c.toNat < 32 then none
    else (strChunks rest).map (fun p => (.ch c :: p.1, p.2))

/-- A high (leading) UTF-16 surrogate value. -/
def isHigh (n : Nat) : Bool := 55296 ≤ n && n ≤ 56319

/-- A low (trailing) UTF-16 surrogate value. -/
def isLow (n : Nat) : Bool := 56320 ≤ n && n ≤ 57343

/-- Combine string units into characters, pairing `\uXXXX` surrogates
as `JSON.parse` does; a lone surrogate becomes U+FFFD (see `Json`).
One unit of fuel per unit is sufficient (each step consumes at least
one unit). -/
def chunksToCharsF : Nat → List SChunk → List Char
  | 0, _ => []
  | f + 1, chunks =>
    match chunks with
    | [] => []
    | .ch c :: rest => c :: chunksToCharsF f rest
    | .u16 n :: rest =>
      if isHigh n then
        match rest with
        | .u16 m :: rest2 =>
          if isLow m then
            Char.ofNat (65536 + (n - 55296) * 1024 + (m - 56320)) :: chunksToCharsF f rest2
          else Char.ofNat 65533 :: chunksToCharsF f (.u16 m :: rest2)
        | _ => Char.ofNat 65533 :: chunksToCharsF f rest
      else if isLow n then Char.ofNat 65533 :: chunksToCharsF f rest
      else Char.ofNat n :: chunksToCharsF f rest

/-- Parse the body of a JSON string literal: decoded characters plus
the input after the closing quote. -/
def parseStrBody (cs : List Char) : Option (List Char × List Char) :=
  (strChunks cs).map (fun p => (chunksToCharsF (p.1.length + 1) p.1, p.2))

/-- Longest prefix of decimal digits, and the rest. -/
def spanDigits : List Char → List Char × List Char
  | [] => ([], [])
  | c :: cs =>
    if '0' ≤ c ∧ c ≤ '9' then
      let p := spanDigits cs
      (c :: p.1, p.2)
    else ([], c :: cs)

/-- Numeric value of a digit string. -/
def digitsVal (ds : List Char) : Nat := ds.foldl (fun a c => a * 10 + (c.toNat - 48)) 0

/-- Parse the optional fraction and exponent of a JSON number, given its
sign and integer part. -/
def parseNumTail (neg : Bool) (ip : Nat) (cs : List Char) : Option (Json × List Char) :=
  let fracStep : Option (List Char × List Char) :=
    match cs with
    | '.' :: r =>
      match spanDigits r with
      | ([], _) => none
      | (ds, r2) => some (ds, r2)
    | _ => some ([], cs)
  match fracStep with
  | none => none
  | some (fds, cs2) =>
    let expStep : Option (Bool × Nat × List Char) :=
      match cs2 with
      | 'e' :: r | 'E' :: r =>
        let sr : Bool × List Char :=
          match r with
          | '+' :: r2 => (false, r2)
          | '-' :: r2 => (true, r2)
          | _ => (false, r)
        match spanDigits sr.2 with
        | ([], _) => none
        | (ds, r2) => some (sr.1, digitsVal ds, r2)
      | _ => some (false, 0, cs2)
    match expStep with
    | none => none
    | some (eneg, ev, cs3) =>
      let mant : Int := (if neg then -1 else 1) * ((ip * 10 ^ fds.length + digitsVal fds : Nat) : Int)
      let ex : Int := (if eneg then -(ev : Int) else (ev : Int)) - (fds.length : Int)
      some (.num mant ex, cs3)

/-- Parse a JSON number token. -/
def parseNum (cs : List Char) : Option (Json × List Char) :=
  let sr : Bool × List Char :=
    match cs with
    | '-' :: r => (true, r)
    | _ => (false, cs)
  match sr.2 with
  | [] => none
  | c :: r =>
    if c = '0' then parseNumTail sr.1 0 r
    else if '1' ≤ c ∧ c ≤ '9' then
      match spanDigits (c :: r) with
      | (ds, r2) => parseNumTail sr.1 (digitsVal ds) r2
    else none

mutual

/-- Parse one JSON value (fuel-indexed; `parseText` supplies enough fuel
for any input).  Mirrors the ECMA-404 grammar used by `JSON.parse`. -/
def parseValue : Nat → List Char → Option (Json × List Char)
  | 0, _ => none
  | fuel + 1, cs0 =>
    match skipWs cs0 with
    | [] => none
    | c :: rest =>
      if c = lbrace then
        match skipWs rest with
        | [] => none
        | c1 :: r2 =>
          if c1 = rbrace then some (.obj [], r2)
          else if c1 = '"' then
            match parseStrBody r2 with
            | none => none
            | some (k, r3) =>
              match skipWs r3 with
              | [] => none
              | c2 :: r4 =>
                if c2 = ':' then
                  match parseValue fuel r4 with
                  | none => none
                  | some (v, r5) => parseObjTail fuel [(⟨k⟩, v)] r5
                else none
          else none
      else if c = '[' then
        match skipWs rest with
        | [] => none
        | c1 :: r2 =>
          if c1 = ']' then some (.arr [], r2)
          else
            match parseValue fuel (c1 :: r2) with
            | none => none
            | some (v, r3) => parseArrTail fuel [v] r3
      else if c = '"' then
        (parseStrBody rest).map (fun p => (.str ⟨p.1⟩, p.2))
      else
        match c :: rest with
        | 'n' :: 'u' :: 'l' :: 'l' :: r => some (.null, r)
        | 't' :: 'r' :: 'u' :: 'e' :: r => some (.bool true, r)
        | 'f' :: 'a' :: 'l' :: 's' :: 'e' :: r => some (.bool false, r)
        | cs => parseNum cs

/-- Parse the rest of a JSON array after at least one element. -/
def parseArrTail : Nat → List Json → List Char → Option (Json × List Char)
  | 0, _, _ => none
  | fuel + 1, acc, cs =>
    match skipWs cs with
    | [] => none
    | c :: r =>
      if c = ']' then some (.arr acc, r)
      else if c = ',' then
        match parseValue fuel r with
        | none => none
        | some (v, r2) => parseArrTail fuel (acc ++ [v]) r2
      else none

/-- Parse the rest of a JSON object after at least one member.
Duplicate keys are kept in order; lookups take the last one, as
`JSON.parse` does. -/
def parseObjTail : Nat → List (String × Json) → List Char → Option (Json × List Char)
  | 0, _, _ => none
  | fuel + 1, acc, cs =>
    match skipWs cs with
    | [] => none
    | c :: r =>
      if c = rbrace then some (.obj acc, r)
      else if c = ',' then
        match skipWs r with
        | [] => none
        | c1 :: r1 =>
          if c1 = '"' then
            match parseStrBody r1 with
            | none => none
            | some (k, r2) =>
              match skipWs r2 with
              | [] => none
              | c2 :: r3 =>
                if c2 = ':' then
                  match parseValue fuel r3 with
                  | none => none
                  | some (v, r4) => parseObjTail fuel (acc ++ [(⟨k⟩, v)]) r4
                else none
          else none
      else none

end

/-- The external `JSON.parse` builtin: `none` models a thrown
`SyntaxError`.  One unit of fuel per input character is sufficient:
every recursive descent step first consumes at least one character. -/
def parseText (s : String) : Option Json :=
  match parseValue (s.data.length + 1) s.data with
  | none => none
  | some (v, rest) => if skipWs rest = [] then some v else none

/-! ## `JSON.stringify` on the serializer's output

`handleSave` writes `JSON.stringify(payload, null, 2)`; the indent
argument only inserts insignificant whitespace between tokens, which
`JSON.parse` skips, so the printer is modelled without it. -/

/-- Lowercase hexadecimal digit character. -/
def hexDigitCh (n : Nat) : Char := if n < 10 then Char.ofNat (48 + n) else Char.ofNat (87 + n)

/-- How `JSON.stringify` escapes one character of a string. -/
def escChar (c : Char) : List Char :=
  if c = '"' then ['\\', '"']
  else if c = '\\' then ['\\', '\\']
  else if c.toNat = 8 then ['\\', 'b']
  else if c.toNat = 9 then ['\\', 't']
  else if c.toNat = 10 then ['\\', 'n']
  else if c.toNat = 12 then ['\\', 'f']
  else if c.toNat = 13 then ['\\', 'r']
  else if c.toNat < 32 then ['\\', 'u', '0', '0', hexDigitCh (c.toNat / 16), hexDigitCh (c.toNat % 16)]
  else [c]

/-- Escaped body of a JSON string literal. -/
def escStr (s : String) : List Char := s.data.foldr (fun c acc => escChar c ++ acc) []

/-- A quoted JSON string literal. -/
def quoteStr (s : String) : List Char := '"' :: escStr s ++ ['"']

/-- A JSON boolean literal. -/
def boolCh (b : Bool) : List Char := if b then ['t', 'r', 'u', 'e'] else ['f', 'a', 'l', 's', 'e']

/-! ## The graph serializer (`createGraphJson` / `parseGraphJson`) -/

/-- One node record of the persisted JSON document
(`{id, label, tagColor}`), as produced by `createGraphJson` and as
declared by the `GraphJson` type. -/
structure JNode where
  id : String
  label : String
  tagColor : String
deriving DecidableEq

/-- One edge record as produced by `createGraphJson`
(`{source, target, directed}` — `directed` is always emitted). -/
structure SerEdge where
  source : String
  target : String
  directed : Bool
deriving DecidableEq

/-- The serialized document produced by `createGraphJson`. -/
structure SerGraph where
  nodes : List JNode
  edges : List SerEdge
deriving DecidableEq

/-- Characters of one serialized node object, keys in the insertion
order of the object literal in `createGraphJson`. -/
def strNodeCh (n : JNode) : List Char :=
  lbrace :: (quoteStr "id" ++ ':' :: quoteStr n.id
    ++ ',' :: quoteStr "label" ++ ':' :: quoteStr n.label
    ++ ',' :: quoteStr "tagColor" ++ ':' :: quoteStr n.tagColor) ++ [rbrace]

/-- Characters of one serialized edge object. -/
def strEdgeCh (e : SerEdge) : List Char :=
  lbrace :: (quoteStr "source" ++ ':' :: quoteStr e.source
    ++ ',' :: quoteStr "target" ++ ':' :: quoteStr e.target
    ++ ',' :: quoteStr "directed" ++ ':' :: boolCh e.directed) ++ [rbrace]

/-- Comma-separated concatenation of already-printed array elements. -/
def sepByComma : List (List Char) → List Char
  | [] => []
  | x :: rest => x ++ rest.foldr (fun y acc => ',' :: y ++ acc) []

/-- A printed JSON array. -/
def arrCh (xs : List (List Char)) : List Char := '[' :: sepByComma xs ++ [']']

/-- Characters of the whole serialized graph document. -/
def docCh (g : SerGraph) : List Char :=
  lbrace :: (quoteStr "nodes" ++ ':' :: arrCh (g.nodes.map strNodeCh)
    ++ ',' :: quoteStr "edges" ++ ':' :: arrCh (g.edges.map strEdgeCh)) ++ [rbrace]

/-- `JSON.stringify` applied to the serializer's payload. -/
def stringifyGraph (g : SerGraph) : String := ⟨docCh g⟩

/-- The `Json` value a serialized node parses back to. -/
def nodeJson (n : JNode) : Json :=
  .obj [("id", .str n.id), ("label", .str n.label), ("tagColor", .str n.tagColor)]

/-- The `Json` value a serialized edge parses back to. -/
def edgeJson (e : SerEdge) : Json :=
  .obj [("source", .str e.source), ("target", .str e.target), ("directed", .bool e.directed)]

/-! ## The dynamic side of `parseGraphJson`

`parseGraphJson` runs `JSON.parse` and then evaluates
`parsed.nodes || []` and `parsed.edges || []` on the untyped result, so
property access and truthiness are modelled exactly: reading a property
of `null` throws a `TypeError`, reading an absent property of anything
else yields `undefined` (here `Option.none`), and `x || y` keeps `x`
only when it is truthy. -/

/-- An exception thrown inside the renderer: `JSON.parse`'s
`SyntaxError`, or a `TypeError` from using a value at the wrong type. -/
inductive JsErr where
  | parseError : JsErr
  | typeError : JsErr
deriving DecidableEq

/-- Property lookup on a parsed JSON object: with duplicate keys,
`JSON.parse` keeps the last occurrence. -/
def jsLookup (fields : List (String × Json)) (k : String) : Option Json :=
  fields.foldl (fun acc p => if p.1 = k then some p.2 else acc) none

/-- JavaScript property access `v.k` on a `JSON.parse` result:
throws on `null`, yields `undefined` (`none`) on non-objects and
missing keys. -/
def jsGetField : Json → String → Except JsErr (Option Json)
  | .null, _ => .error .typeError
  | .obj fields, k => .ok (jsLookup fields k)
  | _, _ => .ok none

/-- JavaScript truthiness of a `JSON.parse` result. -/
def truthy : Json → Bool
  | .null => false
  | .bool b => b
  | .num m _ => m ≠ 0
  | .str s => s ≠ ""
  | .arr _ => true
  | .obj _ => true

/-- `x || []` where `x` may be `undefined`. -/
def jsOrEmptyArr : Option Json → Json
  | some v => if truthy v then v else .arr []
  | none => .arr []

/-- The untyped result of `parseGraphJson`: whatever stood under the
`nodes` and `edges` keys (defaulted to an empty array when absent or
falsy), before the `as GraphJson` cast is honoured. -/
structure RawGraph where
  nodes : Json
  edges : Json

/-- `parseGraphJson` after `JSON.parse` succeeded:
`{nodes: parsed.nodes || [], edges: parsed.edges || []}`. -/
def parseGraphJson (parsed : Json) : Except JsErr RawGraph := do
  let nf ← jsGetField parsed "nodes"
  let ef ← jsGetField parsed "edges"
  return ⟨jsOrEmptyArr nf, jsOrEmptyArr ef⟩

/-- `parseGraphJson` on the raw file text (`JSON.parse` included). -/
def parseGraphJsonStr (raw : String) : Except JsErr RawGraph :=
  match parseText raw with
  | none => .error .parseError
  | some j => parseGraphJson j

/-! ## Reading the parsed document back at its declared type

The code casts the parse result with `as GraphJson` and then maps over
`data.nodes` / `data.edges` reading `id`, `label`, `tagColor`,
`source`, `target`, `directed`.  The decoder below makes that typed
boundary explicit: it requires the arrays of objects with string
fields (and optional boolean `directed`) that the declared `GraphJson`
type promises; on any other shape the session would hold ill-typed
values, represented here as a `TypeError`. -/

/-- One parsed edge record at the declared type
(`{source, target, directed?}`). -/
structure PEdge where
  source : String
  target : String
  directed : Option Bool
deriving DecidableEq

/-- The parsed document at the declared `GraphJson` type. -/
structure DecodedGraph where
  nodes : List JNode
  edges : List PEdge
deriving DecidableEq

/-- Read a string-valued field. -/
def strField (fields : List (String × Json)) (k : String) : Option String :=
  match jsLookup fields k with
  | some (.str s) => some s
  | _ => none

/-- Decode one node record. -/
def decodeNode : Json → Option JNode
  | .obj fields => do
    let i ← strField fields "id"
    let l ← strField fields "label"
    let t ← strField fields "tagColor"
    return ⟨i, l, t⟩
  | _ => none

/-- Decode one edge record (`directed` optional). -/
def decodeEdge : Json → Option PEdge
  | .obj fields => do
    let s ← strField fields "source"
    let t ← strField fields "target"
    match jsLookup fields "directed" with
    | none => return ⟨s, t, none⟩
    | some (.bool b) => return ⟨s, t, some b⟩
    | some _ => none
  | _ => none

/-- Decode the whole document at the declared type. -/
def decodeGraphJson (raw : RawGraph) : Except JsErr DecodedGraph :=
  match raw.nodes, raw.edges with
  | .arr ns, .arr es =>
    match ns.mapM decodeNode, es.mapM decodeEdge with
    | some dn, some de => .ok ⟨dn, de⟩
    | _, _ => .error .typeError
  | _, _ => .error .typeError

/-! ## Session data model (React state of `App`) -/

/-- `GraphNodeData`: payload of a canvas node. -/
structure GraphNodeData where
  label : String
  tagColor : String
deriving DecidableEq

/-- A 2D canvas position. -/
structure Pos where
  x : Int
  y : Int
deriving DecidableEq

/-- A ReactFlow node as the app uses it. -/
structure AppNode where
  id : String
  nodeType : String
  position : Pos
  data : GraphNodeData
deriving DecidableEq

/-- The constant edge stroke style (`defaultEdgeStyle`). -/
structure EdgeStyle where
  stroke : String
  strokeWidth : Nat
deriving DecidableEq

/-- An end-of-edge marker (`MarkerType.ArrowClosed` plus color). -/
structure EdgeMarker where
  markerType : String
  color : String
deriving DecidableEq

/-- The `data` payload of an app edge (`{directed?: boolean}`). -/
structure EdgeData where
  directed : Option Bool
deriving DecidableEq

/-- A ReactFlow edge as the app uses it; `data` may be absent, matching
the `edge.data?.directed` accesses in the code. -/
structure AppEdge where
  id : String
  source : String
  target : String
  edgeType : String
  style : EdgeStyle
  data : Option EdgeData
  markerEnd : Option EdgeMarker
deriving DecidableEq

/-- `TagMeta`. -/
structure TagMeta where
  id : String
  name : String
  color : String
deriving DecidableEq

/-- `GraphFile`: the bound persisted document. -/
structure GraphFile where
  filePath : String
  baseDir : String
deriving DecidableEq

/-- The mutable React state of `App` that the verified operations
touch.  `nodeNotes` is the `Record<string, string>` of loaded notes,
modelled as an association list (first binding wins on lookup). -/
structure Session where
  nodes : List AppNode
  edges : List AppEdge
  selectedNodeId : Option String
  selectedEdgeId : Option String
  graphFile : Option GraphFile
  nodeNotes : List (String × String)
  tags : List TagMeta
  selectedTagColor : Option String
  status : String
deriving DecidableEq

/-- `defaultEdgeStyle`. -/
def defaultEdgeStyle : EdgeStyle := ⟨"#94a3b8", 2⟩

/-- The closed-arrow end marker in the default stroke color. -/
def arrowMarker : EdgeMarker := ⟨"arrowclosed", defaultEdgeStyle.stroke⟩

/-- `nodeNotes[id]`, i.e. `Option`-valued record lookup. -/
def lookupNote (notes : List (String × String)) (k : String) : Option String :=
  (notes.find? (fun p => p.1 == k)).map (·.2)

/-- The effective directedness the serializer and the toggle read:
`edge.data?.directed ?? true`. -/
def edgeDirected (e : AppEdge) : Bool :=
  match e.data with
  | some d => d.directed.getD true
  | none => true

/-- `createGraphJson`: project the session's nodes and edges onto the
persisted document shape. -/
def createGraphJson (nodes : List AppNode) (edges : List AppEdge) : SerGraph :=
  ⟨nodes.map (fun n => ⟨n.id, n.data.label, n.data.tagColor⟩),
   edges.map (fun e => ⟨e.source, e.target, edgeDirected e⟩)⟩

/-! ## Layout (`layoutGraph`)

`layoutGraph` feeds every node id (with a fixed 220×80 box) and every
edge's endpoints into a fresh dagre graph (`rankdir: LR`,
`nodesep: 60`, `ranksep: 80`), runs `dagre.layout`, and copies the
returned center positions back onto the node list shifted by half a
box.  Modelled from the spec: dagre itself is an external dependency;
§4.2 promises a deterministic left-to-right ranked layout and leaves
the algorithm's internals (cycle heuristics, exact coordinates) to the
library, so it is modelled as one concrete deterministic function of
exactly the inputs the adapter passes: the id sequence and the
endpoint pairs. -/

/-- Association lookup keyed by strings. -/
def assocGet (l : List (String × α)) (k : String) : Option α :=
  (l.find? (fun p => p.1 == k)).map (·.2)

/-- Overwrite one rank entry. -/
def setRank (l : List (String × Nat)) (k : String) (v : Nat) : List (String × Nat) :=
  l.map (fun p => if p.1 = k then (p.1, v) else p)

/-- One longest-path relaxation pass over the edges. -/
def rankPass (edges : List (String × String)) (ranks : List (String × Nat)) :
    List (String × Nat) :=
  edges.foldl
    (fun rs e =>
      match assocGet rs e.1, assocGet rs e.2 with
      | some ru, some rv => if rv < ru + 1 then setRank rs e.2 (ru + 1) else rs
      | _, _ => rs)
    ranks

/-- Ranks of the graph's nodes: zero, relaxed once per node. -/
def dagreRanks (ids : List String) (edges : List (String × String)) : List (String × Nat) :=
  (List.range ids.length).foldl (fun rs _ => rankPass edges rs)
    (ids.map (fun i => (i, 0)))

/-- Bump the per-rank row counter. -/
def bumpRank (l : List (Nat × Nat)) (r : Nat) : List (Nat × Nat) :=
  match l.find? (fun p => p.1 == r) with
  | some _ => l.map (fun p => if p.1 = r then (p.1, p.2 + 1) else p)
  | none => l ++ [(r, 1)]

/-- Center positions dagre returns, keyed by node id: column from the
rank (box 220 + ranksep 80), row from the order within the rank
(box 80 + nodesep 60). -/
def dagrePositions (ids0 : List String) (edges : List (String × String)) :
    List (String × Pos) :=
  let ids := ids0.dedup
  let ranks := dagreRanks ids edges
  (ids.foldl
    (fun (acc : List (String × Pos) × List (Nat × Nat)) i =>
      let r := (assocGet ranks i).getD 0
      let row := ((acc.2.find? (fun p => p.1 == r)).map (·.2)).getD 0
      (acc.1 ++ [(i, ⟨(r : Int) * 300 + 110, (row : Int) * 140 + 40⟩)], bumpRank acc.2 r))
    ([], [])).1

/-- `layoutGraph`: recompute every node's position from the topology. -/
def layoutGraph (nodes : List AppNode) (edges : List AppEdge) : List AppNode :=
  let pos := dagrePositions (nodes.map (·.id)) (edges.map (fun e => (e.source, e.target)))
  nodes.map (fun n =>
    match assocGet pos n.id with
    | some p => { n with position := ⟨p.x - 110, p.y - 40⟩ }
    | none => { n with position := ⟨0, 0⟩ })

/-! ## Session operations -/

/-- `onDeleteNode`: guarded by the truthiness of `selectedNodeId`
(absent or empty string means no selection), removes the selected
node, every incident edge, the selection and the note entry. -/
def onDeleteNode (s : Session) : Session :=
  match s.selectedNodeId with
  | none => s
  | some nid =>
    if nid = "" then s
    else
      { s with
        nodes := s.nodes.filter (fun n => !(n.id == nid))
        edges := s.edges.filter (fun e => !(e.source == nid) && !(e.target == nid))
        selectedNodeId := none
        nodeNotes := s.nodeNotes.filter (fun p => !(p.1 == nid)) }

/-- The per-edge update `onToggleEdgeDirection` maps over the edge
list: the selected edge gets `directed` flipped
(`!(edge.data?.directed ?? true)`), its `data` spread-updated and its
arrow marker matched to the new flag; every other edge is returned
as-is. -/
def toggleEdge (eid : String) (e : AppEdge) : AppEdge :=
  if e.id = eid then
    let d := !(edgeDirected e)
    { e with data := some ⟨some d⟩, markerEnd := if d then some arrowMarker else none }
  else e

/-- `onToggleEdgeDirection`, guarded by the truthiness of
`selectedEdgeId`. -/
def onToggleEdgeDirection (s : Session) : Session :=
  match s.selectedEdgeId with
  | none => s
  | some eid => if eid = "" then s else { s with edges := s.edges.map (toggleEdge eid) }

/-! ## Saving (`handleSave` and the `node:write` IPC handler) -/

/-- One `writeNodeFile` request. -/
structure NoteWrite where
  baseDir : String
  nodeId : String
  content : String
deriving DecidableEq

/-- What one call to `handleSave` does: either it falls through to the
Save-As dialog (no file path bound), or it issues one graph-JSON write
plus the note-file writes.  The `setStatus` call is presentation only
and not modelled. -/
inductive SaveOutcome where
  | delegated : SaveOutcome
  | performed : (String × String) → List NoteWrite → SaveOutcome
deriving DecidableEq

/-- The note writes of an outcome. -/
def SaveOutcome.notes : SaveOutcome → List NoteWrite
  | .delegated => []
  | .performed _ ws => ws

/-- JavaScript `a ?? b`. -/
def jsCoalesce (a b : Option α) : Option α :=
  match a with
  | some x => some x
  | none => b

/-- `handleSave(filePathOverride?, baseDirOverride?)`: resolve the file
path (falling back to the bound `GraphFile`, and to Save-As when that
is missing or empty), serialize the current nodes and edges, and — when
a base directory is bound — write every node's note file with the
in-memory note, defaulting to the empty string when the notes record
has no entry for that node id. -/
def handleSave (s : Session) (filePathOverride baseDirOverride : Option String) : SaveOutcome :=
  match jsCoalesce filePathOverride (s.graphFile.map (·.filePath)) with
  | none => .delegated
  | some fp =>
    if fp = "" then .delegated
    else
      let payload := createGraphJson s.nodes s.edges
      let noteWrites :=
        match jsCoalesce baseDirOverride (s.graphFile.map (·.baseDir)) with
        | some bd =>
          if bd = "" then []
          else s.nodes.map (fun n => ⟨bd, n.id, (lookupNote s.nodeNotes n.id).getD ""⟩)
        | none => []
      .performed (fp, stringifyGraph payload) noteWrites

/-- The note-file path the `node:write` IPC handler writes
(`path.join(baseDir, 'nodes', nodeId + '.md')`, modelled as plain
`/`-joining). -/
def notePath (baseDir nodeId : String) : String := baseDir ++ "/nodes/" ++ nodeId ++ ".md"

/-- A file system, path to content. -/
abbrev FileSys := List (String × String)

/-- Content at a path. -/
def fileGet (fs : FileSys) (p : String) : Option String :=
  (List.find? (fun q => q.1 == p) fs).map (·.2)

/-- `fs.writeFile`: truncate/overwrite, creating the file if needed. -/
def fileSet : FileSys → String → String → FileSys
  | [], p, c => [(p, c)]
  | q :: fs, p, c => if q.1 = p then (p, c) :: fs else q :: fileSet fs p c

/-- The `node:write` IPC handler of `electron/main.js`: write the note
content to `<baseDir>/nodes/<nodeId>.md`. -/
def applyNoteWrite (fs : FileSys) (w : NoteWrite) : FileSys :=
  fileSet fs (notePath w.baseDir w.nodeId) w.content

/-- All of a save's note writes, in order. -/
def applyNoteWrites (fs : FileSys) (ws : List NoteWrite) : FileSys :=
  ws.foldl applyNoteWrite fs

/-! ## Opening (`handleOpen`) -/

/-- A successful reply of the `graph:open` IPC call. -/
structure OpenResult where
  filePath : String
  baseDir : String
  data : String
deriving DecidableEq

/-- `ensureTagsForColors`: append a tag for every loaded node color not
already carried by a tag.  Falsy (empty) colors are skipped; the
filter's duplicate colors each get their own tag, as in the code.  The
`crypto.randomUUID()` tag ids are external randomness and are modelled
by deterministic opaque strings; no verified property depends on
them. -/
def ensureTagsForColors (current : List TagMeta) (colors : List String) : List TagMeta :=
  let existing := current.map (·.color)
  let additions := (colors.filter (fun c => !(c == "") && !(existing.contains c))).enum.map
    (fun p => (⟨"tag-" ++ p.2 ++ "-" ++ toString p.1,
               "Tag " ++ toString (current.length + p.1 + 1), p.2⟩ : TagMeta))
  if additions.isEmpty then current else current ++ additions

/-- A node as `handleOpen` builds it before layout. -/
def loadNode (n : JNode) : AppNode :=
  ⟨n.id, "graphNode", ⟨0, 0⟩, ⟨n.label, n.tagColor⟩⟩

/-- An edge as `handleOpen` builds it: id from endpoints and index,
`directed` defaulted to `true`, arrow marker iff directed. -/
def loadEdge (i : Nat) (e : PEdge) : AppEdge :=
  let d := e.directed.getD true
  ⟨"e-" ++ e.source ++ "-" ++ e.target ++ "-" ++ toString i, e.source, e.target,
    "smoothstep", defaultEdgeStyle, some ⟨some d⟩, if d then some arrowMarker else none⟩

/-- Map with the element index, as `Array.prototype.map` provides. -/
def mapWithIndex (f : Nat → α → β) (l : List α) : List β :=
  l.enum.map (fun p => f p.1 p.2)

/-- `handleOpen`: on a non-cancelled dialog result, parse the file text,
read it at the declared type, lay out and install the loaded graph,
register tags for loaded colors, bind the `GraphFile`, clear the node
selection, and reset the notes record to empty.  Every thrown exception
(malformed JSON, or a document that defeats the `as GraphJson` cast)
happens before the first `set*` call, so the pair's first component is
the unchanged session in that case; the second component is the thrown
exception, if any.  Loaded edges are installed verbatim — nothing
checks their endpoints against the loaded node set. -/
def handleOpen (s : Session) (result : Option OpenResult) : Session × Option JsErr :=
  match result with
  | none => (s, none)
  | some r =>
    match parseGraphJsonStr r.data with
    | .error e => (s, some e)
    | .ok raw =>
      match decodeGraphJson raw with
      | .error e => (s, some e)
      | .ok doc =>
        let loadedNodes := doc.nodes.map loadNode
        let loadedEdges := mapWithIndex loadEdge doc.edges
        ({ s with
            nodes := layoutGraph loadedNodes loadedEdges
            edges := loadedEdges
            tags := ensureTagsForColors s.tags (loadedNodes.map (·.data.tagColor))
            graphFile := some ⟨r.filePath, r.baseDir⟩
            selectedNodeId := none
            nodeNotes := []
            status := "Opened " ++ r.filePath }, none)

/-! ## Initial state -/

/-- `initialNodes`. -/
def initialNodes : List AppNode :=
  [⟨"node-1", "graphNode", ⟨0, 0⟩, ⟨"Idea", "#6366F1"⟩⟩,
   ⟨"node-2", "graphNode", ⟨300, 0⟩, ⟨"Next", "#22C55E"⟩⟩]

/-- `initialEdges`. -/
def initialEdges : List AppEdge :=
  [⟨"e1-2", "node-1", "node-2", "smoothstep", defaultEdgeStyle, some ⟨some true⟩,
    some arrowMarker⟩]

/-- The session as `App` first renders it. -/
def initialSession : Session :=
  ⟨layoutGraph initialNodes initialEdges, initialEdges, none, none, none, [],
   [⟨"tag-core", "Core", "#6366F1"⟩, ⟨"tag-todo", "Todo", "#22C55E"⟩], none, "Ready"⟩

/-! ## The autosave debounce

The `useEffect` over `[nodes, edges, graphFile?.filePath]` clears any
pending timeout and arms a new 800 ms one whenever nodes or edges
change while a file path is bound; the timeout's callback runs
`handleSave()` over the state captured when it was armed.  This is
modelled as an event-driven machine: each mutation event carries its
time and its state update; a due timer fires before the next event is
processed, and firing appends the graph-JSON write `handleSave` would
issue for the captured snapshot. -/

/-- An armed debounce timer: its deadline and the session snapshot its
`handleSave` closure captured. -/
structure PendingSave where
  deadline : Nat
  snap : Session
deriving DecidableEq

/-- The machine state: current session, armed timer, writes issued. -/
structure AutoState where
  session : Session
  pending : Option PendingSave
  writes : List (String × String)

/-- The graph-JSON write the timer's `handleSave()` issues for its
captured snapshot (none bound — or an empty path — falls through to
the Save-As dialog instead of writing). -/
def graphWriteOf (s : Session) : Option (String × String) :=
  match s.graphFile with
  | some gf =>
    if gf.filePath = "" then none
    else some (gf.filePath, stringifyGraph (createGraphJson s.nodes s.edges))
  | none => none

/-- Fire the armed timer if its deadline has passed. -/
def fireDue (st : AutoState) (now : Nat) : AutoState :=
  match st.pending with
  | some p =>
    if p.deadline ≤ now then
      { st with pending := none, writes := st.writes ++ (graphWriteOf p.snap).toList }
    else st
  | none => st

/-- Process one mutation event `(t, μ)`: let a due timer fire first,
apply the mutation, then re-run the autosave effect — if a file path is
bound it clears any pending timeout and arms a fresh 800 ms one over
the new state, otherwise it returns early (leaving any pending timer
armed, as the `if (!graphFile?.filePath) return` does). -/
def stepMut (st : AutoState) (ev : Nat × (Session → Session)) : AutoState :=
  let st1 := fireDue st ev.1
  let s2 := ev.2 st1.session
  let st2 := { st1 with session := s2 }
  if ((s2.graphFile.map (·.filePath)).getD "") = "" then st2
  else { st2 with pending := some ⟨ev.1 + 800, s2⟩ }

/-- Run a whole trace: all mutation events, then enough idle time
(`tEnd`) for the last timer to fire. -/
def runAutosave (s0 : Session) (events : List (Nat × (Session → Session))) (tEnd : Nat) :
    AutoState :=
  fireDue (events.foldl stepMut ⟨s0, none, []⟩) tEnd

/-- The session after all the mutations of a trace. -/
def applyEvents (events : List (Nat × (Session → Session))) (s : Session) : Session :=
  events.foldl (fun s p => p.2 s) s

/-- Each event of the list happens no earlier than the previous one and
strictly within 800 ms of it (`t0` seeds the chain). -/
def chainedFrom (t0 : Nat) : List (Nat × (Session → Session)) → Bool
  | [] => true
  | (t, _) :: rest => decide (t0 ≤ t) && decide (t < t0 + 800) && chainedFrom t rest

/-- All of a trace's mutations fall inside one debounce window of their
predecessor. -/
def withinWindow : List (Nat × (Session → Session)) → Bool
  | [] => true
  | (t, _) :: rest => chainedFrom t rest

/-- The time of the last event (`t0` when there is none). -/
def lastTimeFrom (t0 : Nat) (events : List (Nat × (Session → Session))) : Nat :=
  events.foldl (fun _ p => p.1) t0

/-! ## C5 — cascade deletion -/

/-- C5: with a node selected (a truthy id — the generated ids are never
empty), `onDeleteNode` removes exactly the nodes carrying the selected
id, removes exactly the edges incident to it, drops its notes entry,
and — when every edge endpoint named an existing node before — every
edge endpoint still names an existing node afterwards. -/
theorem delete_node_cascades (s : Session) (nid : String)
    (hsel : s.selectedNodeId = some nid) (hne : nid ≠ "")
    (hinv : ∀ e ∈ s.edges,
      (∃ n ∈ s.nodes, n.id = e.source) ∧ (∃ n ∈ s.nodes, n.id = e.target)) :
    (∀ n ∈ (onDeleteNode s).nodes, n.id ≠ nid) ∧
    (∀ n ∈ s.nodes, n.id ≠ nid → n ∈ (onDeleteNode s).nodes) ∧
    (∀ e ∈ (onDeleteNode s).edges, e.source ≠ nid ∧ e.target ≠ nid) ∧
    (∀ e ∈ s.edges, e.source ≠ nid → e.target ≠ nid → e ∈ (onDeleteNode s).edges) ∧
    lookupNote (onDeleteNode s).nodeNotes nid = none ∧
    (onDeleteNode s).selectedNodeId = none ∧
    (∀ e ∈ (onDeleteNode s).edges,
      (∃ n ∈ (onDeleteNode s).nodes, n.id = e.source) ∧
      (∃ n ∈ (onDeleteNode s).nodes, n.id = e.target)) := by
  have hdef : onDeleteNode s =
      { s with
        nodes := s.nodes.filter (fun n => !(n.id == nid))
        edges := s.edges.filter (fun e => !(e.source == nid) && !(e.target == nid))
        selectedNodeId := none
        nodeNotes := s.nodeNotes.filter (fun p => !(p.1 == nid)) } := by
    unfold onDeleteNode
    rw [hsel]
    simp [hne]
  rw [hdef]
  refine ⟨?_, ?_, ?_, ?_, ?_, rfl, ?_⟩
  · intro n hn
    simp only [List.mem_filter, Bool.not_eq_true', beq_eq_false_iff_ne, ne_eq] at hn
    exact hn.2
  · intro n hn hne'
    simp only [List.mem_filter, Bool.not_eq_true', beq_eq_false_iff_ne, ne_eq]
    exact ⟨hn, hne'⟩
  · intro e he
    simp only [List.mem_filter, Bool.and_eq_true, Bool.not_eq_true',
      beq_eq_false_iff_ne, ne_eq] at he
    exact he.2
  · intro e he h1 h2
    simp only [List.mem_filter, Bool.and_eq_true, Bool.not_eq_true',
      beq_eq_false_iff_ne, ne_eq]
    exact ⟨he, h1, h2⟩
  · have hnone : List.find? (fun p => p.1 == nid)
        (s.nodeNotes.filter (fun p => !(p.1 == nid))) = none := by
      rw [List.find?_eq_none]
      intro p hp
      simp only [List.mem_filter, Bool.not_eq_true', beq_eq_false_iff_ne, ne_eq] at hp
      simp [hp.2]
    unfold lookupNote
    rw [hnone]
    rfl
  · intro e he
    simp only [List.mem_filter, Bool.and_eq_true, Bool.not_eq_true',
      beq_eq_false_iff_ne, ne_eq] at he
    obtain ⟨hmem, hs, ht⟩ := he
    obtain ⟨⟨n1, hn1, hid1⟩, ⟨n2, hn2, hid2⟩⟩ := hinv e hmem
    refine ⟨⟨n1, ?_, hid1⟩, ⟨n2, ?_, hid2⟩⟩
    · simp only [List.mem_filter, Bool.not_eq_true', beq_eq_false_iff_ne, ne_eq]
      exact ⟨hn1, by rw [hid1]; exact hs⟩
    · simp only [List.mem_filter, Bool.not_eq_true', beq_eq_false_iff_ne, ne_eq]
      exact ⟨hn2, by rw [hid2]; exact ht⟩

/-- A session with `node-1` selected, used to exercise C5. -/
def delSession : Session := { initialSession with selectedNodeId := some "node-1" }

/-- C5 applied: deleting `node-1` from the initial graph removes it,
removes the incident edge `e1-2`, and leaves no dangling endpoint. -/
theorem delete_node_cascades_witness :
    (∀ n ∈ (onDeleteNode delSession).nodes, n.id ≠ "node-1") ∧
    (∀ n ∈ delSession.nodes, n.id ≠ "node-1" → n ∈ (onDeleteNode delSession).nodes) ∧
    (∀ e ∈ (onDeleteNode delSession).edges, e.source ≠ "node-1" ∧ e.target ≠ "node-1") ∧
    (∀ e ∈ delSession.edges, e.source ≠ "node-1" → e.target ≠ "node-1" →
      e ∈ (onDeleteNode delSession).edges) ∧
    lookupNote (onDeleteNode delSession).nodeNotes "node-1" = none ∧
    (onDeleteNode delSession).selectedNodeId = none ∧
    (∀ e ∈ (onDeleteNode delSession).edges,
      (∃ n ∈ (onDeleteNode delSession).nodes, n.id = e.source) ∧
      (∃ n ∈ (onDeleteNode delSession).nodes, n.id = e.target)) :=
  delete_node_cascades delSession "node-1" rfl (by decide) (by decide)

/-! ## C9 — toggling edge direction is frame-local -/

/-- C9: with no edge selected `onToggleEdgeDirection` is the identity
on the whole session; with an edge selected (a truthy id — generated
edge ids are never empty) it rewrites only the edge list, by a map that
leaves every non-selected edge untouched and, on the selected id,
changes nothing but the `directed` flag (flipped) and the arrow marker
(present exactly when the new flag is set). -/
theorem toggle_direction_frame (s : Session) :
    (s.selectedEdgeId = none → onToggleEdgeDirection s = s) ∧
    (∀ eid, s.selectedEdgeId = some eid → eid ≠ "" →
      ((onToggleEdgeDirection s).nodes = s.nodes ∧
       (onToggleEdgeDirection s).selectedNodeId = s.selectedNodeId ∧
       (onToggleEdgeDirection s).selectedEdgeId = s.selectedEdgeId ∧
       (onToggleEdgeDirection s).graphFile = s.graphFile ∧
       (onToggleEdgeDirection s).nodeNotes = s.nodeNotes ∧
       (onToggleEdgeDirection s).tags = s.tags ∧
       (onToggleEdgeDirection s).selectedTagColor = s.selectedTagColor ∧
       (onToggleEdgeDirection s).status = s.status) ∧
      (onToggleEdgeDirection s).edges = s.edges.map (toggleEdge eid) ∧
      (∀ e : AppEdge, e.id ≠ eid → toggleEdge eid e = e) ∧
      (∀ e : AppEdge, e.id = eid →
        (toggleEdge eid e).id = e.id ∧
        (toggleEdge eid e).source = e.source ∧
        (toggleEdge eid e).target = e.target ∧
        (toggleEdge eid e).edgeType = e.edgeType ∧
        (toggleEdge eid e).style = e.style ∧
        edgeDirected (toggleEdge eid e) = !(edgeDirected e) ∧
        (toggleEdge eid e).markerEnd =
          (if edgeDirected (toggleEdge eid e) then some arrowMarker else none))) := by
  constructor
  · intro hnone
    unfold onToggleEdgeDirection
    rw [hnone]
  · intro eid hsel hne
    have hdef : onToggleEdgeDirection s = { s with edges := s.edges.map (toggleEdge eid) } := by
      unfold onToggleEdgeDirection
      rw [hsel]
      simp [hne]
    rw [hdef]
    refine ⟨⟨rfl, rfl, rfl, rfl, rfl, rfl, rfl, rfl⟩, rfl, ?_, ?_⟩
    · intro e hid
      unfold toggleEdge
      rw [if_neg hid]
    · intro e hid
      have ht : toggleEdge eid e =
          { e with data := some ⟨some (!(edgeDirected e))⟩,
                   markerEnd := if !(edgeDirected e) then some arrowMarker else none } := by
        unfold toggleEdge
        rw [if_pos hid]
      rw [ht]
      exact ⟨rfl, rfl, rfl, rfl, rfl, rfl, rfl⟩

/-- A session with the initial edge selected, used to exercise C9. -/
def togSession : Session := { initialSession with selectedEdgeId := some "e1-2" }

/-- C9 applied: toggling with `e1-2` selected keeps every other field
of the session and flips that edge's flag; toggling the initial session
(no edge selected) changes nothing. -/
theorem toggle_direction_frame_witness :
    (onToggleEdgeDirection initialSession = initialSession) ∧
    (onToggleEdgeDirection togSession).nodes = togSession.nodes ∧
    (onToggleEdgeDirection togSession).edges = togSession.edges.map (toggleEdge "e1-2") ∧
    (∀ e : AppEdge, e.id = "e1-2" →
      edgeDirected (toggleEdge "e1-2" e) = !(edgeDirected e)) :=
  ⟨(toggle_direction_frame initialSession).1 rfl,
   ((toggle_direction_frame togSession).2 "e1-2" rfl (by decide)).1.1,
   (((toggle_direction_frame togSession).2 "e1-2" rfl (by decide)).2).1,
   fun e hid =>
     ((((toggle_direction_frame togSession).2 "e1-2" rfl (by decide)).2).2.2 e hid).2.2.2.2.2.1⟩

/-! ## C7 — malformed JSON on open leaves the session unchanged -/

/-- C7: when the chosen file's content is not valid JSON, `handleOpen`
throws the parse failure before any state update: the session
component is exactly the input session and the error is reported. -/
theorem open_malformed_atomic (s : Session) (r : OpenResult)
    (hbad : parseText r.data = none) :
    handleOpen s (some r) = (s, some JsErr.parseError) := by
  simp only [handleOpen, parseGraphJsonStr, hbad]

/-- C7 applied: opening a file containing `"{"` fails with a parse
error and leaves the initial session untouched. -/
theorem open_malformed_atomic_witness :
    handleOpen initialSession (some ⟨"g.json", "gdir", "\x7b"⟩) =
      (initialSession, some JsErr.parseError) :=
  open_malformed_atomic initialSession ⟨"g.json", "gdir", "\x7b"⟩ rfl

/-! ## C3 — dangling edges on load -/

/-- The graph file of C3's example (well-formed records, with the edge
`a → b` whose target names no node). -/
def danglingDoc : String :=
  "\x7b\"nodes\":[\x7b\"id\":\"a\",\"label\":\"A\",\"tagColor\":\"#fff\"\x7d],\"edges\":[\x7b\"source\":\"a\",\"target\":\"b\"\x7d]\x7d"

/-- The open-dialog reply delivering `danglingDoc`. -/
def danglingOpen : OpenResult := ⟨"g.json", "gdir", danglingDoc⟩

/-- C3 is false on the code: after loading a document whose only edge
targets the missing node `b`, the session *contains* an edge targeting
`b`, no node named `b` exists, and no error was reported — the edge was
not dropped. -/
theorem dangling_edge_kept_counterexample :
    ((handleOpen initialSession (some danglingOpen)).1.edges.any
        (fun e => e.target == "b")) = true ∧
    ((handleOpen initialSession (some danglingOpen)).1.nodes.all
        (fun n => !(n.id == "b"))) = true ∧
    (handleOpen initialSession (some danglingOpen)).2 = none := by
  exact ⟨rfl, rfl, rfl⟩

/-- C3 amended: `handleOpen` installs the loaded edges verbatim — the
edge list after a successful load has exactly the source/target pairs
of the document's edge records, whether or not their endpoints name
loaded nodes, and no error is reported. -/
theorem open_loads_edges_verbatim (s : Session) (r : OpenResult) (raw : RawGraph)
    (doc : DecodedGraph) (h1 : parseGraphJsonStr r.data = .ok raw)
    (h2 : decodeGraphJson raw = .ok doc) :
    (handleOpen s (some r)).2 = none ∧
    (handleOpen s (some r)).1.edges.map (fun e => (e.source, e.target)) =
      doc.edges.map (fun e => (e.source, e.target)) := by
  have hdef : handleOpen s (some r) =
      ({ s with
          nodes := layoutGraph (doc.nodes.map loadNode) (mapWithIndex loadEdge doc.edges)
          edges := mapWithIndex loadEdge doc.edges
          tags := ensureTagsForColors s.tags ((doc.nodes.map loadNode).map (·.data.tagColor))
          graphFile := some ⟨r.filePath, r.baseDir⟩
          selectedNodeId := none
          nodeNotes := []
          status := "Opened " ++ r.filePath }, none) := by
    simp only [handleOpen, h1, h2]
  rw [hdef]
  refine ⟨rfl, ?_⟩
  unfold mapWithIndex
  rw [List.map_map]
  have : ∀ (l : List (Nat × PEdge)),
      l.map ((fun e => (e.source, e.target)) ∘ fun p => loadEdge p.1 p.2) =
        l.map (fun p => (p.2.source, p.2.target)) := by
    intro l
    apply List.map_congr_left
    intro p _
    rfl
  rw [this]
  rw [show (fun p : Nat × PEdge => (p.2.source, p.2.target)) =
      ((fun e : PEdge => (e.source, e.target)) ∘ Prod.snd) from rfl]
  rw [← List.map_map, List.enum_map_snd]

/-- C3 amended, applied to the example document: the loaded edge list
is exactly `[a → b]`. -/
theorem open_loads_edges_verbatim_witness :
    (handleOpen initialSession (some danglingOpen)).2 = none ∧
    (handleOpen initialSession (some danglingOpen)).1.edges.map
        (fun e => (e.source, e.target)) = [("a", "b")] :=
  open_loads_edges_verbatim initialSession danglingOpen ⟨.arr [nodeJson ⟨"a", "A", "#fff"⟩],
      .arr [.obj [("source", .str "a"), ("target", .str "b")]]⟩
    ⟨[⟨"a", "A", "#fff"⟩], [⟨"a", "b", none⟩]⟩ rfl rfl

/-! ## C8 — layout determinism -/

/-- The positions `layoutGraph` assigns, as a function of only the id
sequence and the endpoint-pair sequence it hands to dagre. -/
theorem layout_positions_from_ids (ns : List AppNode) (es : List AppEdge) :
    (layoutGraph ns es).map (·.position) =
      (ns.map (·.id)).map (fun i =>
        match assocGet
            (dagrePositions (ns.map (·.id)) (es.map fun e => (e.source, e.target))) i with
        | some p => (⟨p.x - 110, p.y - 40⟩ : Pos)
        | none => ⟨0, 0⟩) := by
  unfold layoutGraph
  simp only [List.map_map]
  apply List.map_congr_left
  intro n _
  simp only [Function.comp]
  cases assocGet (dagrePositions (ns.map (·.id)) (es.map fun e => (e.source, e.target))) n.id
  · rfl
  · rfl

/-- C8: the positions `layoutGraph` returns are a function of the node
id sequence and the edge endpoint sequence alone — so two calls with
the same nodes and edges in the same order yield identical positions
(instantiate the second list pair with the first) — and a call with
zero nodes returns the empty list of positioned nodes, for any edge
list.  The dagre layout itself is an external dependency, modelled per
§4.2 as a deterministic function of exactly these inputs. -/
theorem layout_deterministic_and_empty :
    (∀ (ns ns' : List AppNode) (es es' : List AppEdge),
      ns.map (·.id) = ns'.map (·.id) →
      es.map (fun e => (e.source, e.target)) = es'.map (fun e => (e.source, e.target)) →
      (layoutGraph ns es).map (·.position) = (layoutGraph ns' es').map (·.position)) ∧
    (∀ es, layoutGraph [] es = []) := by
  constructor
  · intro ns ns' es es' hid hep
    rw [layout_positions_from_ids, layout_positions_from_ids, hid, hep]
  · intro es
    rfl

/-- Two node lists with the same ids but different labels and
positions, and the initial edge list. -/
def layoutNsA : List AppNode :=
  [⟨"node-1", "graphNode", ⟨5, 5⟩, ⟨"first", "#111111"⟩⟩,
   ⟨"node-2", "graphNode", ⟨7, 7⟩, ⟨"second", "#222222"⟩⟩]

/-- C8 applied: layouts of two lists agreeing on ids and endpoints
(labels, colors and stale positions differ) assign the same
positions. -/
theorem layout_deterministic_and_empty_witness :
    (layoutGraph layoutNsA initialEdges).map (·.position) =
      (layoutGraph initialNodes initialEdges).map (·.position) :=
  layout_deterministic_and_empty.1 layoutNsA initialNodes initialEdges initialEdges rfl rfl

/-! ## C10 — opening resets the notes record and the node selection -/

/-- C10: a successful `handleOpen` empties the in-memory notes record
and clears the node selection, so a save performed on the resulting
session (the autosave's `handleSave()` with no overrides) writes the
empty string to every loaded node's note file — no note content of the
previously open document survives, even for re-used node ids.  (The
bound paths being truthy reflects that the dialog returns real
paths.) -/
theorem open_resets_notes_and_selection (s : Session) (r : OpenResult) (raw : RawGraph)
    (doc : DecodedGraph) (h1 : parseGraphJsonStr r.data = .ok raw)
    (h2 : decodeGraphJson raw = .ok doc) (hfp : r.filePath ≠ "") (hbd : r.baseDir ≠ "") :
    (handleOpen s (some r)).1.nodeNotes = [] ∧
    (handleOpen s (some r)).1.selectedNodeId = none ∧
    (handleSave (handleOpen s (some r)).1 none none).notes =
      (handleOpen s (some r)).1.nodes.map (fun n => ⟨r.baseDir, n.id, ""⟩) := by
  have hdef : handleOpen s (some r) =
      ({ s with
          nodes := layoutGraph (doc.nodes.map loadNode) (mapWithIndex loadEdge doc.edges)
          edges := mapWithIndex loadEdge doc.edges
          tags := ensureTagsForColors s.tags ((doc.nodes.map loadNode).map (·.data.tagColor))
          graphFile := some ⟨r.filePath, r.baseDir⟩
          selectedNodeId := none
          nodeNotes := []
          status := "Opened " ++ r.filePath }, none) := by
    simp only [handleOpen, h1, h2]
  rw [hdef]
  refine ⟨rfl, rfl, ?_⟩
  simp only [handleSave, jsCoalesce, Option.map_some', SaveOutcome.notes]
  rw [if_neg hfp, if_neg hbd]
  simp only [SaveOutcome.notes, lookupNote, List.find?_nil, Option.map_none', Option.getD_none]

/-- C10 applied: opening the example document over a session that
still holds a note for the id `a` resets the record, and the following
save writes empty content for the loaded node `a`. -/
theorem open_resets_notes_and_selection_witness :
    (handleOpen { initialSession with nodeNotes := [("a", "old note")] }
        (some danglingOpen)).1.nodeNotes = [] ∧
    (handleOpen { initialSession with nodeNotes := [("a", "old note")] }
        (some danglingOpen)).1.selectedNodeId = none ∧
    (handleSave (handleOpen { initialSession with nodeNotes := [("a", "old note")] }
        (some danglingOpen)).1 none none).notes =
      (handleOpen { initialSession with nodeNotes := [("a", "old note")] }
        (some danglingOpen)).1.nodes.map (fun n => ⟨"gdir", n.id, ""⟩) :=
  open_resets_notes_and_selection _ danglingOpen
    ⟨.arr [nodeJson ⟨"a", "A", "#fff"⟩], .arr [.obj [("source", .str "a"), ("target", .str "b")]]⟩
    ⟨[⟨"a", "A", "#fff"⟩], [⟨"a", "b", none⟩]⟩ rfl rfl (by decide) (by decide)

/-! ## C2 — every save writes every node's note file -/

/-- Reading a non-empty file system: the head entry answers when its
path matches. -/
theorem fileGet_cons (q : String × String) (fs : FileSys) (p : String) :
    fileGet (q :: fs) p = if q.1 = p then some q.2 else fileGet fs p := by
  unfold fileGet
  rw [List.find?_cons]
  cases hqb : (q.1 == p) with
  | true =>
    rw [if_pos (beq_iff_eq.mp hqb)]
    rfl
  | false =>
    rw [if_neg (by simpa using hqb)]

/-- Writing a path then reading it gives the written content. -/
theorem fileGet_fileSet_same (fs : FileSys) (p c : String) :
    fileGet (fileSet fs p c) p = some c := by
  induction fs with
  | nil => simp [fileSet, fileGet_cons]
  | cons q fs ih =>
    by_cases hq : q.1 = p
    · simp [fileSet, hq, fileGet_cons]
    · simp [fileSet, hq, fileGet_cons, ih]

/-- Writing a path leaves every other path's content alone. -/
theorem fileGet_fileSet_ne (fs : FileSys) (p c p' : String) (h : p' ≠ p) :
    fileGet (fileSet fs p c) p' = fileGet fs p' := by
  induction fs with
  | nil =>
    simp [fileSet, fileGet_cons, Ne.symm h]
  | cons q fs ih =>
    by_cases hq : q.1 = p
    · rw [fileSet, if_pos hq, fileGet_cons, fileGet_cons, if_neg (Ne.symm h), hq,
        if_neg (Ne.symm h)]
    · rw [fileSet, if_neg hq, fileGet_cons, fileGet_cons, ih]

/-- A batch of note writes none of which target `p` leaves `p`'s
content alone. -/
theorem applyNoteWrites_untouched (ws : List NoteWrite) :
    ∀ (fs : FileSys) (p : String), (∀ w ∈ ws, notePath w.baseDir w.nodeId ≠ p) →
      fileGet (applyNoteWrites fs ws) p = fileGet fs p := by
  induction ws with
  | nil => intro fs p _; rfl
  | cons w ws ih =>
    intro fs p hne
    unfold applyNoteWrites at *
    rw [List.foldl_cons, ih _ _ (fun w' hw' => hne w' (List.mem_cons_of_mem _ hw'))]
    exact fileGet_fileSet_ne fs _ w.content p
      (fun hp => hne w (List.mem_cons_self _ _) hp.symm)

/-- If some write of a batch targets `p` and every write targeting `p`
carries content `c`, then `p` holds `c` after the batch. -/
theorem applyNoteWrites_const (ws : List NoteWrite) :
    ∀ (fs : FileSys) (p c : String),
      (∃ w ∈ ws, notePath w.baseDir w.nodeId = p) →
      (∀ w ∈ ws, notePath w.baseDir w.nodeId = p → w.content = c) →
      fileGet (applyNoteWrites fs ws) p = some c := by
  induction ws with
  | nil =>
    intro fs p c hex _
    obtain ⟨w, hw, _⟩ := hex
    exact absurd hw (List.not_mem_nil w)
  | cons w ws ih =>
    intro fs p c hex hall
    by_cases htail : ∃ w' ∈ ws, notePath w'.baseDir w'.nodeId = p
    · unfold applyNoteWrites at *
      rw [List.foldl_cons]
      exact ih _ _ _ htail (fun w' hw' => hall w' (List.mem_cons_of_mem _ hw'))
    · have hw : notePath w.baseDir w.nodeId = p := by
        obtain ⟨w', hw', hp⟩ := hex
        rcases List.mem_cons.mp hw' with h | hmem
        · rw [← h]; exact hp
        · exact absurd ⟨w', hmem, hp⟩ htail
      unfold applyNoteWrites at *
      rw [List.foldl_cons]
      rw [show List.foldl applyNoteWrite (applyNoteWrite fs w) ws =
            applyNoteWrites (applyNoteWrite fs w) ws from rfl]
      rw [applyNoteWrites_untouched ws _ _ (fun w' hmem hp => htail ⟨w', hmem, hp⟩)]
      unfold applyNoteWrite
      rw [hw, hall w (List.mem_cons_self _ _) hw]
      exact fileGet_fileSet_same _ _ _

/-- `notePath` is injective in the node id for a fixed base
directory. -/
theorem notePath_inj (bd : String) {a b : String} (h : notePath bd a = notePath bd b) :
    a = b := by
  unfold notePath at h
  have h' := congrArg String.data h
  simp only [String.data_append] at h'
  have h2 := List.append_cancel_right h'
  have h3 := List.append_cancel_left h2
  exact congrArg String.mk h3

/-- C2: whenever a `GraphFile` is bound (its paths truthy, as the
dialog returns them), `handleSave()` — the call both the autosave timer
and the Save button make — writes the serialized graph and issues one
note-file write per node in the current node set, whose content is the
in-memory note defaulted to the empty string; consequently a node with
no entry in the notes record (one never selected during the session)
has its note file overwritten with empty content by the `node:write`
handler. -/
theorem save_writes_every_note (s : Session) (gf : GraphFile)
    (h : s.graphFile = some gf) (hfp : gf.filePath ≠ "") (hbd : gf.baseDir ≠ "") :
    handleSave s none none =
      .performed (gf.filePath, stringifyGraph (createGraphJson s.nodes s.edges))
        (s.nodes.map fun n => ⟨gf.baseDir, n.id, (lookupNote s.nodeNotes n.id).getD ""⟩) ∧
    (∀ n ∈ s.nodes, lookupNote s.nodeNotes n.id = none →
      ∀ fs : FileSys,
        fileGet (applyNoteWrites fs (handleSave s none none).notes)
          (notePath gf.baseDir n.id) = some "") := by
  have hmain : handleSave s none none =
      .performed (gf.filePath, stringifyGraph (createGraphJson s.nodes s.edges))
        (s.nodes.map fun n => ⟨gf.baseDir, n.id, (lookupNote s.nodeNotes n.id).getD ""⟩) := by
    simp only [handleSave, jsCoalesce, h, Option.map_some']
    rw [if_neg hfp, if_neg hbd]
  refine ⟨hmain, ?_⟩
  intro n hn hnote fs
  rw [hmain]
  apply applyNoteWrites_const
  · exact ⟨⟨gf.baseDir, n.id, (lookupNote s.nodeNotes n.id).getD ""⟩,
      List.mem_map.mpr ⟨n, hn, rfl⟩, rfl⟩
  · intro w hw hp
    obtain ⟨m, _, hwm⟩ := List.mem_map.mp hw
    rw [← hwm] at hp ⊢
    have hid : m.id = n.id := notePath_inj gf.baseDir hp
    simp only [hid, hnote, Option.getD_none]

/-- A bound session in which `node-1` has a loaded note and `node-2`
has none. -/
def saveSession : Session :=
  { initialSession with
    graphFile := some ⟨"gdir/g.json", "gdir"⟩
    nodeNotes := [("node-1", "my note")] }

/-- C2 applied: saving `saveSession` writes the serialized graph and
both note files, and the never-loaded `node-2` file ends up empty on
any file system. -/
theorem save_writes_every_note_witness :
    handleSave saveSession none none =
      .performed ("gdir/g.json", stringifyGraph (createGraphJson saveSession.nodes saveSession.edges))
        (saveSession.nodes.map fun n => ⟨"gdir", n.id, (lookupNote saveSession.nodeNotes n.id).getD ""⟩) ∧
    fileGet (applyNoteWrites [(notePath "gdir" "node-2", "stale content")]
        (handleSave saveSession none none).notes) (notePath "gdir" "node-2") = some "" := by
  have h := save_writes_every_note saveSession ⟨"gdir/g.json", "gdir"⟩ rfl (by decide) (by decide)
  refine ⟨h.1, ?_⟩
  exact h.2 ⟨"node-2", "graphNode", ⟨300, 0⟩, ⟨"Next", "#22C55E"⟩⟩ (by decide) (by decide) _

/-! ## C4 — autosave debounce -/

/-- Mutations that do not touch the binding keep the bound file
through a whole trace. -/
theorem applyEvents_graphFile (events : List (Nat × (Session → Session))) :
    ∀ (s : Session),
      (∀ p ∈ events, ∀ s' : Session, ((p.2) s').graphFile = s'.graphFile) →
      (applyEvents events s).graphFile = s.graphFile := by
  induction events with
  | nil => intro s _; rfl
  | cons e rest ih =>
    intro s hpres
    rw [show applyEvents (e :: rest) s = applyEvents rest (e.2 s) from rfl]
    rw [ih _ (fun p hp => hpres p (List.mem_cons_of_mem _ hp))]
    exact hpres e (List.mem_cons_self _ _) s

/-- While every next event lands strictly inside the armed window, no
timer fires: the fold just re-applies the mutations and re-arms the
timer over the newest state, leaving the writes untouched. -/
theorem debounce_run_aux (gf : GraphFile) (hfp : gf.filePath ≠ "") :
    ∀ (evs : List (Nat × (Session → Session))) (cur : Session) (t : Nat)
      (w : List (String × String)),
      cur.graphFile = some gf →
      (∀ p ∈ evs, ∀ s' : Session, ((p.2) s').graphFile = s'.graphFile) →
      chainedFrom t evs = true →
      evs.foldl stepMut ⟨cur, some ⟨t + 800, cur⟩, w⟩ =
        ⟨applyEvents evs cur, some ⟨lastTimeFrom t evs + 800, applyEvents evs cur⟩, w⟩ := by
  intro evs
  induction evs with
  | nil => intro cur t w _ _ _; rfl
  | cons e rest ih =>
    intro cur t w hgf hpres hch
    obtain ⟨t2, μ⟩ := e
    simp only [chainedFrom, Bool.and_eq_true, decide_eq_true_eq] at hch
    obtain ⟨⟨hle, hlt⟩, hch'⟩ := hch
    have hgf' : (μ cur).graphFile = some gf := by
      rw [hpres (t2, μ) (List.mem_cons_self _ _) cur, hgf]
    have hstep : stepMut ⟨cur, some ⟨t + 800, cur⟩, w⟩ (t2, μ) =
        ⟨μ cur, some ⟨t2 + 800, μ cur⟩, w⟩ := by
      unfold stepMut fireDue
      simp only []
      rw [if_neg (by omega : ¬(t + 800 ≤ t2))]
      rw [hgf']
      simp only [Option.map_some', Option.getD_some]
      rw [if_neg hfp]
    rw [List.foldl_cons, hstep,
      ih (μ cur) t2 w hgf' (fun p hp => hpres p (List.mem_cons_of_mem _ hp)) hch']
    rfl

/-- C4: for a non-empty trace of mutations while a `GraphFile` is
bound, every one landing strictly within 800 ms of its predecessor,
exactly one graph-JSON write is persisted once the trace goes idle, and
its content is the serialization of the state after the last mutation.
Re-arming replaces the previously scheduled save, which is why the
earlier mutations produce no write of their own. -/
theorem autosave_debounce (s0 : Session) (gf : GraphFile)
    (events : List (Nat × (Session → Session))) (tEnd : Nat)
    (h0 : s0.graphFile = some gf) (hfp : gf.filePath ≠ "")
    (hne : events ≠ [])
    (hwin : withinWindow events = true)
    (hpres : ∀ p ∈ events, ∀ s' : Session, ((p.2) s').graphFile = s'.graphFile)
    (hend : lastTimeFrom 0 events + 800 ≤ tEnd) :
    (runAutosave s0 events tEnd).writes =
      [(gf.filePath,
        stringifyGraph (createGraphJson (applyEvents events s0).nodes
          (applyEvents events s0).edges))] := by
  obtain ⟨t1, μ1, rest, rfl⟩ : ∃ t1 μ1 rest, events = (t1, μ1) :: rest := by
    match events, hne with
    | (t1, μ1) :: rest, _ => exact ⟨t1, μ1, rest, rfl⟩
  have hgf1 : (μ1 s0).graphFile = some gf := by
    rw [hpres (t1, μ1) (List.mem_cons_self _ _) s0, h0]
  have hstep1 : stepMut ⟨s0, none, []⟩ (t1, μ1) =
      ⟨μ1 s0, some ⟨t1 + 800, μ1 s0⟩, []⟩ := by
    unfold stepMut fireDue
    simp only []
    rw [hgf1]
    simp only [Option.map_some', Option.getD_some]
    rw [if_neg hfp]
  have hch : chainedFrom t1 rest = true := hwin
  unfold runAutosave
  rw [List.foldl_cons, hstep1,
    debounce_run_aux gf hfp rest (μ1 s0) t1 [] hgf1
      (fun p hp => hpres p (List.mem_cons_of_mem _ hp)) hch]
  have hfin : (applyEvents rest (μ1 s0)).graphFile = some gf := by
    rw [applyEvents_graphFile rest (μ1 s0)
      (fun p hp => hpres p (List.mem_cons_of_mem _ hp)), hgf1]
  unfold fireDue
  simp only []
  rw [if_pos (by exact hend)]
  unfold graphWriteOf
  rw [hfin]
  simp only []
  rw [if_neg hfp]
  rfl

/-- First witness mutation: drop all edges. -/
def wMut1 : Session → Session := fun s => { s with edges := [] }

/-- Second witness mutation: rename the first node. -/
def wMut2 : Session → Session := fun s =>
  { s with nodes := s.nodes.map (fun n => { n with data := { n.data with label := "renamed" } }) }

/-- Two mutations 600 ms apart, well inside one debounce window. -/
def wEvents : List (Nat × (Session → Session)) := [(100, wMut1), (700, wMut2)]

/-- A bound session for the debounce witness. -/
def wSession : Session := { initialSession with graphFile := some ⟨"gdir/g.json", "gdir"⟩ }

/-- C4 applied: the two-mutation burst persists exactly one write,
serializing the state after the second mutation. -/
theorem autosave_debounce_witness :
    (runAutosave wSession wEvents 2000).writes =
      [("gdir/g.json",
        stringifyGraph (createGraphJson (applyEvents wEvents wSession).nodes
          (applyEvents wEvents wSession).edges))] :=
  autosave_debounce wSession ⟨"gdir/g.json", "gdir"⟩ wEvents 2000 rfl (by decide)
    (by simp [wEvents]) rfl
    (by
      intro p hp s'
      rcases List.mem_cons.mp hp with h | hp2
      · rw [h]; rfl
      · rcases List.mem_cons.mp hp2 with h | hp3
        · rw [h]; rfl
        · exact absurd hp3 (List.not_mem_nil _))
    (by decide)

/-! ## C6 — deserializer tolerance and failure condition -/

/-- On any parsed document other than `null`, the two property reads
and the `|| []` defaults of `parseGraphJson` cannot throw. -/
theorem parseGraphJson_ok_of_ne_null (j : Json) (h : j ≠ .null) :
    ∃ r, parseGraphJson j = .ok r := by
  cases j with
  | null => exact absurd rfl h
  | bool b => exact ⟨_, rfl⟩
  | num m e => exact ⟨_, rfl⟩
  | str s => exact ⟨_, rfl⟩
  | arr xs => exact ⟨_, rfl⟩
  | obj fields => exact ⟨_, rfl⟩

/-- C6 is false as stated and holds in this amended form:
`parseGraphJson` tolerates absent `nodes`/`edges` keys (each defaults
to the empty array, which reads back as zero nodes and zero edges),
but it fails if and only if the raw input is not valid JSON *or* is
the valid JSON document `null` — on `null`, `JSON.parse` succeeds and
the subsequent `parsed.nodes` property access throws a `TypeError`. -/
theorem parse_tolerant_and_error_iff :
    (∀ s : String,
      (∃ e, parseGraphJsonStr s = .error e) ↔
        (parseText s = none ∨ parseText s = some .null)) ∧
    (∀ (s : String) (fields : List (String × Json)),
      parseText s = some (.obj fields) →
      jsLookup fields "nodes" = none → jsLookup fields "edges" = none →
      parseGraphJsonStr s = .ok ⟨.arr [], .arr []⟩) ∧
    decodeGraphJson ⟨.arr [], .arr []⟩ = .ok ⟨[], []⟩ := by
  refine ⟨?_, ?_, rfl⟩
  · intro s
    cases hp : parseText s with
    | none =>
      have hstr : parseGraphJsonStr s = .error .parseError := by
        unfold parseGraphJsonStr
        rw [hp]
      rw [hstr]
      exact ⟨fun _ => Or.inl rfl, fun _ => ⟨.parseError, rfl⟩⟩
    | some j =>
      have hstr : parseGraphJsonStr s = parseGraphJson j := by
        unfold parseGraphJsonStr
        rw [hp]
      rw [hstr]
      by_cases hnull : j = .null
      · subst hnull
        exact ⟨fun _ => Or.inr rfl, fun _ => ⟨.typeError, rfl⟩⟩
      · constructor
        · intro ⟨e, he⟩
          obtain ⟨r, hr⟩ := parseGraphJson_ok_of_ne_null j hnull
          rw [hr] at he
          exact absurd he (by simp)
        · intro h
          rcases h with h | h
          · exact absurd h (by simp)
          · exact absurd (Option.some.inj h) hnull
  · intro s fields hp h1 h2
    unfold parseGraphJsonStr
    rw [hp]
    simp only [parseGraphJson, jsGetField, h1, h2, jsOrEmptyArr]
    rfl

/-- C6's counterexample: the input `"null"` is valid JSON
(`JSON.parse` yields `null`), yet `parseGraphJson` fails on it — and
with a `TypeError` from `parsed.nodes`, not a parse error. -/
theorem parse_error_iff_counterexample :
    parseText "null" = some .null ∧
    parseGraphJsonStr "null" = .error .typeError :=
  ⟨rfl, rfl⟩

/-- C6 (amended) applied: `"{}"` — a valid document with both keys
absent — loads as zero nodes and zero edges with no failure, and the
iff puts the empty string (invalid JSON) on the failing side. -/
theorem parse_tolerant_and_error_iff_witness :
    parseGraphJsonStr "\x7b\x7d" = .ok ⟨.arr [], .arr []⟩ ∧
    (∃ e, parseGraphJsonStr "" = .error e) :=
  ⟨parse_tolerant_and_error_iff.2.1 "\x7b\x7d" [] rfl rfl rfl,
   (parse_tolerant_and_error_iff.1 "").mpr (Or.inl rfl)⟩

/-! ## C1 — serialize→deserialize round trip

The round trip is proved at the level of the actual file text: parsing
the characters `stringifyGraph` emits recovers exactly the serialized
document.  The development follows the printer bottom-up: escaped
strings, then literals, then objects and arrays, then the whole
document, with fuel threaded in the `∀ f, P (f + cost)` style. -/

/-- Reading back a hexadecimal digit recovers its value. -/
theorem hexVal_hexDigitCh : ∀ n, n < 16 → hexVal (hexDigitCh n) = some n := by
  decide

/-- The string unit each escaped character tokenizes back to. -/
def chunkOfEsc (c : Char) : SChunk :=
  if c.toNat < 32 ∧ c.toNat ≠ 8 ∧ c.toNat ≠ 9 ∧ c.toNat ≠ 10 ∧ c.toNat ≠ 12 ∧ c.toNat ≠ 13 then
    .u16 c.toNat
  else .ch c

/-- Tokenization step for a closing quote. -/
theorem strChunks_close (rest : List Char) : strChunks ('"' :: rest) = some ([], rest) := by
  rw [strChunks.eq_def]
  rfl

/-- Tokenization step for the escapes `\"` `\\` `\b` `\t` `\n` `\f`
`\r`, each given by its escape character and decoded character. -/
theorem strChunks_escQ (T : List Char) :
    strChunks ('\\' :: '"' :: T) = (strChunks T).map (fun p => (.ch '"' :: p.1, p.2)) := by
  rw [strChunks.eq_def]
  rfl

/-- Tokenization step for `\\`. -/
theorem strChunks_escB (T : List Char) :
    strChunks ('\\' :: '\\' :: T) = (strChunks T).map (fun p => (.ch '\\' :: p.1, p.2)) := by
  rw [strChunks.eq_def]
  rfl

/-- Tokenization step for the named control escapes. -/
theorem strChunks_escCtl (e d : Char) (he : escCode e = some d) (hu : e ≠ 'u')
    (T : List Char) :
    strChunks ('\\' :: e :: T) = (strChunks T).map (fun p => (.ch d :: p.1, p.2)) := by
  have hred : strChunks ('\\' :: e :: T) =
      (if e = 'u' then
        (match T with
         | a :: b :: c2 :: d2 :: r3 =>
           match hexVal a, hexVal b, hexVal c2, hexVal d2 with
           | some h1, some h2, some h3, some h4 =>
             (strChunks r3).map (fun p =>
               (.u16 (((h1 * 16 + h2) * 16 + h3) * 16 + h4) :: p.1, p.2))
           | _, _, _, _ => none
         | _ => none)
       else
        match escCode e with
        | some d => (strChunks T).map (fun p => (.ch d :: p.1, p.2))
        | none => none) := by
    rw [strChunks.eq_def]
    rfl
  rw [hred, if_neg hu, he]

/-- Tokenization step for a `\u00XX` escape written with two hex
digits. -/
theorem strChunks_escU (a b : Char) (va vb : Nat) (T : List Char)
    (ha : hexVal a = some va) (hb : hexVal b = some vb) :
    strChunks ('\\' :: 'u' :: '0' :: '0' :: a :: b :: T) =
      (strChunks T).map (fun p => (.u16 (((0 * 16 + 0) * 16 + va) * 16 + vb) :: p.1, p.2)) := by
  have hred : strChunks ('\\' :: 'u' :: '0' :: '0' :: a :: b :: T) =
      (match hexVal '0', hexVal '0', hexVal a, hexVal b with
       | some h1, some h2, some h3, some h4 =>
         (strChunks T).map (fun p => (.u16 (((h1 * 16 + h2) * 16 + h3) * 16 + h4) :: p.1, p.2))
       | _, _, _, _ => none) := by
    rw [strChunks.eq_def]
    rfl
  rw [hred, ha, hb]
  rfl

/-- Tokenization step for a plain (unescaped) character. -/
theorem strChunks_plain (c : Char) (T : List Char) (h1 : ¬c = '"') (h2 : ¬c = '\\')
    (h8 : ¬c.toNat < 32) :
    strChunks (c :: T) = (strChunks T).map (fun p => (.ch c :: p.1, p.2)) := by
  rw [strChunks.eq_def]
  simp only [if_neg h1, if_neg h2, if_neg h8]

/-- Tokenizing an escaped character sequence (followed by the closing
quote) yields one unit per character. -/
theorem strChunks_escape : ∀ (l : List Char) (rest : List Char),
    strChunks ((l.foldr (fun c acc => escChar c ++ acc) []) ++ '"' :: rest) =
      some (l.map chunkOfEsc, rest) := by
  intro l
  induction l with
  | nil => intro rest; exact strChunks_close rest
  | cons c l ih =>
    intro rest
    simp only [List.foldr_cons, List.map_cons, List.append_assoc]
    by_cases h1 : c = '"'
    · subst h1
      rw [show escChar '"' = ['\\', '"'] from rfl]
      simp only [List.cons_append, List.nil_append]
      rw [strChunks_escQ, ih rest]
      rfl
    · by_cases h2 : c = '\\'
      · subst h2
        rw [show escChar '\\' = ['\\', '\\'] from rfl]
        simp only [List.cons_append, List.nil_append]
        rw [strChunks_escB, ih rest]
        rfl
      · by_cases h3 : c.toNat = 8
        · have hc : c = Char.ofNat 8 := by rw [← h3, Char.ofNat_toNat]
          subst hc
          rw [show escChar (Char.ofNat 8) = ['\\', 'b'] from rfl]
          simp only [List.cons_append, List.nil_append]
          rw [strChunks_escCtl 'b' (Char.ofNat 8) rfl (by decide), ih rest]
          rfl
        · by_cases h4 : c.toNat = 9
          · have hc : c = Char.ofNat 9 := by rw [← h4, Char.ofNat_toNat]
            subst hc
            rw [show escChar (Char.ofNat 9) = ['\\', 't'] from rfl]
            simp only [List.cons_append, List.nil_append]
            rw [strChunks_escCtl 't' (Char.ofNat 9) rfl (by decide), ih rest]
            rfl
          · by_cases h5 : c.toNat = 10
            · have hc : c = Char.ofNat 10 := by rw [← h5, Char.ofNat_toNat]
              subst hc
              rw [show escChar (Char.ofNat 10) = ['\\', 'n'] from rfl]
              simp only [List.cons_append, List.nil_append]
              rw [strChunks_escCtl 'n' (Char.ofNat 10) rfl (by decide), ih rest]
              rfl
            · by_cases h6 : c.toNat = 12
              · have hc : c = Char.ofNat 12 := by rw [← h6, Char.ofNat_toNat]
                subst hc
                rw [show escChar (Char.ofNat 12) = ['\\', 'f'] from rfl]
                simp only [List.cons_append, List.nil_append]
                rw [strChunks_escCtl 'f' (Char.ofNat 12) rfl (by decide), ih rest]
                rfl
              · by_cases h7 : c.toNat = 13
                · have hc : c = Char.ofNat 13 := by rw [← h7, Char.ofNat_toNat]
                  subst hc
                  rw [show escChar (Char.ofNat 13) = ['\\', 'r'] from rfl]
                  simp only [List.cons_append, List.nil_append]
                  rw [strChunks_escCtl 'r' (Char.ofNat 13) rfl (by decide), ih rest]
                  rfl
                · by_cases h8 : c.toNat < 32
                  · have hesc : escChar c =
                        ['\\', 'u', '0', '0', hexDigitCh (c.toNat / 16),
                         hexDigitCh (c.toNat % 16)] := by
                      unfold escChar
                      rw [if_neg h1, if_neg h2, if_neg h3, if_neg h4, if_neg h5, if_neg h6,
                        if_neg h7, if_pos h8]
                    rw [hesc]
                    simp only [List.cons_append, List.nil_append]
                    rw [strChunks_escU (hexDigitCh (c.toNat / 16)) (hexDigitCh (c.toNat % 16))
                      (c.toNat / 16) (c.toNat % 16) _
                      (hexVal_hexDigitCh (c.toNat / 16) (by omega))
                      (hexVal_hexDigitCh (c.toNat % 16) (by omega))]
                    have hval : ((0 * 16 + 0) * 16 + c.toNat / 16) * 16 + c.toNat % 16 =
                        c.toNat := by omega
                    rw [hval, ih rest]
                    have hchunk : chunkOfEsc c = .u16 c.toNat := by
                      unfold chunkOfEsc
                      rw [if_pos ⟨h8, h3, h4, h5, h6, h7⟩]
                    rw [hchunk]
                    rfl
                  · have hesc : escChar c = [c] := by
                      unfold escChar
                      rw [if_neg h1, if_neg h2, if_neg h3, if_neg h4, if_neg h5, if_neg h6,
                        if_neg h7, if_neg h8]
                    rw [hesc]
                    simp only [List.cons_append, List.nil_append]
                    rw [strChunks_plain c _ h1 h2 h8, ih rest]
                    have hchunk : chunkOfEsc c = .ch c := by
                      unfold chunkOfEsc
                      rw [if_neg (by tauto)]
                    rw [hchunk]
                    rfl

/-- Recombining the units of an escaped sequence yields the original
characters (no surrogates arise: every `\uXXXX` the printer emits is a
control code). -/
theorem chunksToChars_escape : ∀ (l : List Char) (f : Nat),
    chunksToCharsF (f + l.length + 1) (l.map chunkOfEsc) = l := by
  intro l
  induction l with
  | nil =>
    intro f
    rw [chunksToCharsF.eq_def]
    rfl
  | cons c l ih =>
    intro f
    simp only [List.map_cons, List.length_cons]
    have hfuel : f + (l.length + 1) + 1 = (f + l.length + 1) + 1 := by omega
    rw [hfuel]
    by_cases h : c.toNat < 32 ∧ c.toNat ≠ 8 ∧ c.toNat ≠ 9 ∧ c.toNat ≠ 10 ∧
        c.toNat ≠ 12 ∧ c.toNat ≠ 13
    · have hchunk : chunkOfEsc c = .u16 c.toNat := by
        unfold chunkOfEsc
        rw [if_pos h]
      rw [hchunk]
      have hhigh : isHigh c.toNat = false := by
        unfold isHigh
        simp only [Bool.and_eq_false_iff, decide_eq_false_iff_not]
        left
        omega
      have hlow : isLow c.toNat = false := by
        unfold isLow
        simp only [Bool.and_eq_false_iff, decide_eq_false_iff_not]
        left
        omega
      have hred : chunksToCharsF ((f + l.length + 1) + 1) (SChunk.u16 c.toNat :: l.map chunkOfEsc) =
          (if isHigh c.toNat then
            (match l.map chunkOfEsc with
             | .u16 m :: rest2 =>
               if isLow m then
                 Char.ofNat (65536 + (c.toNat - 55296) * 1024 + (m - 56320)) ::
                   chunksToCharsF (f + l.length + 1) rest2
               else Char.ofNat 65533 :: chunksToCharsF (f + l.length + 1) (.u16 m :: rest2)
             | _ => Char.ofNat 65533 :: chunksToCharsF (f + l.length + 1) (l.map chunkOfEsc))
           else if isLow c.toNat then
             Char.ofNat 65533 :: chunksToCharsF (f + l.length + 1) (l.map chunkOfEsc)
           else Char.ofNat c.toNat :: chunksToCharsF (f + l.length + 1) (l.map chunkOfEsc)) := by
        rw [chunksToCharsF.eq_def]
      rw [hred, hhigh, hlow]
      simp only [Bool.false_eq_true, if_false]
      rw [ih f, Char.ofNat_toNat]
    · have hchunk : chunkOfEsc c = .ch c := by
        unfold chunkOfEsc
        rw [if_neg h]
      rw [hchunk]
      have hred : chunksToCharsF ((f + l.length + 1) + 1) (SChunk.ch c :: l.map chunkOfEsc) =
          c :: chunksToCharsF (f + l.length + 1) (l.map chunkOfEsc) := by
        rw [chunksToCharsF.eq_def]
      rw [hred, ih f]

/-- Parsing an escaped string body (with its closing quote) recovers
exactly the original characters. -/
theorem parseStrBody_escape (s : String) (rest : List Char) :
    parseStrBody (escStr s ++ '"' :: rest) = some (s.data, rest) := by
  unfold parseStrBody escStr
  rw [strChunks_escape s.data rest]
  simp only [Option.map_some', List.length_map]
  rw [show s.data.length + 1 = 0 + s.data.length + 1 from by omega]
  rw [chunksToChars_escape s.data 0]

/-! ### Token-level parsing lemmas -/

/-- Whitespace skipping is inert on every token head the printer
emits. -/
theorem skipWs_lbrace (l : List Char) : skipWs (lbrace :: l) = lbrace :: l := rfl

/-- `skipWs` is inert on `}`. -/
theorem skipWs_rbrace (l : List Char) : skipWs (rbrace :: l) = rbrace :: l := rfl

/-- `skipWs` is inert on `"`. -/
theorem skipWs_quote (l : List Char) : skipWs ('"' :: l) = '"' :: l := rfl

/-- `skipWs` is inert on `[`. -/
theorem skipWs_lbrack (l : List Char) : skipWs ('[' :: l) = '[' :: l := rfl

/-- `skipWs` is inert on `]`. -/
theorem skipWs_rbrack (l : List Char) : skipWs (']' :: l) = ']' :: l := rfl

/-- `skipWs` is inert on `,`. -/
theorem skipWs_comma (l : List Char) : skipWs (',' :: l) = ',' :: l := rfl

/-- `skipWs` is inert on `:`. -/
theorem skipWs_colon (l : List Char) : skipWs (':' :: l) = ':' :: l := rfl

/-- `skipWs` is inert on `t`. -/
theorem skipWs_t (l : List Char) : skipWs ('t' :: l) = 't' :: l := rfl

/-- `skipWs` is inert on `f`. -/
theorem skipWs_f (l : List Char) : skipWs ('f' :: l) = 'f' :: l := rfl

/-- Parsing a printed string literal. -/
theorem parseValue_str (f : Nat) (s : String) (rest : List Char) :
    parseValue (f + 1) (quoteStr s ++ rest) = some (.str s, rest) := by
  have hshape : quoteStr s ++ rest = '"' :: (escStr s ++ '"' :: rest) := by
    unfold quoteStr
    simp [List.append_assoc]
  rw [hshape]
  have hred : parseValue (f + 1) ('"' :: (escStr s ++ '"' :: rest)) =
      (parseStrBody (escStr s ++ '"' :: rest)).map (fun p => (.str ⟨p.1⟩, p.2)) := by
    rw [parseValue.eq_def]
    rfl
  rw [hred, parseStrBody_escape]
  rfl

/-- Parsing a printed boolean literal. -/
theorem parseValue_bool (f : Nat) (b : Bool) (rest : List Char) :
    parseValue (f + 1) (boolCh b ++ rest) = some (.bool b, rest) := by
  cases b
  · have hred : parseValue (f + 1) ('f' :: 'a' :: 'l' :: 's' :: 'e' :: rest) =
        some (.bool false, rest) := by
      rw [parseValue.eq_def]
      rfl
    exact hred
  · have hred : parseValue (f + 1) ('t' :: 'r' :: 'u' :: 'e' :: rest) =
        some (.bool true, rest) := by
      rw [parseValue.eq_def]
      rfl
    exact hred

/-! ### Object and array parsing, member by member

A printed member is a key, its parsed value, and the value's printed
text; the hypotheses say each value text parses to its value at any
sufficient fuel (`c` is the value's fuel cost). -/

/-- Printed text of the trailing members of an object, ending in `}`
and the given rest. -/
def memberTailText (ms : List (String × Json × List Char)) (rest : List Char) : List Char :=
  ms.foldr (fun m acc => ',' :: ('"' :: (escStr m.1 ++ '"' :: (':' :: (m.2.2 ++ acc)))))
    (rbrace :: rest)

/-- Stepping `parseObjTail` over printed members accumulates them in
order. -/
theorem parseObjTail_chain (c : Nat) (ms : List (String × Json × List Char)) :
    ∀ (f : Nat) (acc : List (String × Json)) (rest : List Char),
      (∀ m ∈ ms, ∀ (g : Nat) (r : List Char),
        parseValue (g + c + 1) (m.2.2 ++ r) = some (m.2.1, r)) →
      parseObjTail (f + (c + 2) * ms.length + 1) acc (memberTailText ms rest) =
        some (.obj (acc ++ ms.map (fun m => (m.1, m.2.1))), rest) := by
  induction ms with
  | nil =>
    intro f acc rest _
    rw [show f + (c + 2) * List.length ([] : List (String × Json × List Char)) + 1 = f + 1
      from by simp]
    rw [show memberTailText [] rest = rbrace :: rest from rfl]
    rw [parseObjTail.eq_def]
    simp only [skipWs_rbrace, if_pos rfl, if_true, List.map_nil, List.append_nil]
  | cons m ms ih =>
    intro f acc rest hval
    obtain ⟨key, v, txt⟩ := m
    have hv : ∀ (g : Nat) (r : List Char), parseValue (g + c + 1) (txt ++ r) = some (v, r) :=
      fun g r => hval (key, v, txt) (List.mem_cons_self _ _) g r
    rw [List.length_cons]
    rw [show f + (c + 2) * (ms.length + 1) + 1 = (f + (c + 2) * ms.length + c + 2) + 1
      from by ring]
    rw [show memberTailText ((key, v, txt) :: ms) rest =
        ',' :: ('"' :: (escStr key ++ '"' :: (':' :: (txt ++ memberTailText ms rest))))
      from rfl]
    rw [parseObjTail.eq_def]
    simp only [skipWs_comma, skipWs_quote, skipWs_colon, parseStrBody_escape]
    rw [if_neg (show ¬(',' = rbrace) from by decide)]
    rw [show f + (c + 2) * ms.length + c + 2 = (f + (c + 2) * ms.length + 1) + c + 1
      from by ring]
    simp only [if_true, hv (f + (c + 2) * ms.length + 1)]
    rw [show (f + (c + 2) * ms.length + 1) + c + 1 = (f + c + 1) + (c + 2) * ms.length + 1
      from by ring]
    rw [ih (f + c + 1) (acc ++ [(String.mk key.data, v)]) rest
      (fun m hm => hval m (List.mem_cons_of_mem _ hm))]
    simp

/-- Printed text of a whole non-empty object value. -/
def objText (m0 : String × Json × List Char) (ms : List (String × Json × List Char))
    (rest : List Char) : List Char :=
  lbrace :: ('"' :: (escStr m0.1 ++ '"' :: (':' :: (m0.2.2 ++ memberTailText ms rest))))

/-- Parsing a printed non-empty object value yields its members in
order. -/
theorem parseValue_objOf (c : Nat) (m0 : String × Json × List Char)
    (ms : List (String × Json × List Char)) (f : Nat) (rest : List Char)
    (h0 : ∀ (g : Nat) (r : List Char),
      parseValue (g + c + 1) (m0.2.2 ++ r) = some (m0.2.1, r))
    (hms : ∀ m ∈ ms, ∀ (g : Nat) (r : List Char),
      parseValue (g + c + 1) (m.2.2 ++ r) = some (m.2.1, r)) :
    parseValue (f + (c + 2) * (ms.length + 1) + 1) (objText m0 ms rest) =
      some (.obj ((m0.1, m0.2.1) :: ms.map (fun m => (m.1, m.2.1))), rest) := by
  obtain ⟨key, v, txt⟩ := m0
  have hfuel : f + (c + 2) * (ms.length + 1) + 1 =
      ((f + (c + 2) * ms.length + c + 2)) + 1 := by ring
  rw [hfuel]
  rw [show objText (key, v, txt) ms rest =
      lbrace :: ('"' :: (escStr key ++ '"' :: (':' :: (txt ++ memberTailText ms rest))))
    from rfl]
  rw [parseValue.eq_def]
  simp only [skipWs_lbrace, skipWs_quote, skipWs_colon, parseStrBody_escape, if_pos rfl]
  rw [if_neg (show ¬('"' = rbrace) from by decide)]
  have hF : f + (c + 2) * ms.length + c + 2 =
      (f + (c + 2) * ms.length + 1) + c + 1 := by ring
  rw [hF]
  simp only [if_true, if_pos rfl, h0 (f + (c + 2) * ms.length + 1)]
  have hF2 : (f + (c + 2) * ms.length + 1) + c + 1 =
      (f + c + 1) + (c + 2) * ms.length + 1 := by ring
  rw [hF2]
  rw [parseObjTail_chain c ms (f + c + 1) [(⟨key.data⟩, v)] rest hms]
  simp

/-- Printed text of the trailing elements of an array, ending in `]`
and the given rest. -/
def arrTailText (xs : List (Json × List Char)) (rest : List Char) : List Char :=
  xs.foldr (fun x acc => ',' :: (x.2 ++ acc)) (']' :: rest)

/-- Stepping `parseArrTail` over printed elements accumulates them in
order. -/
theorem parseArrTail_chain (c : Nat) (xs : List (Json × List Char)) :
    ∀ (f : Nat) (acc : List Json) (rest : List Char),
      (∀ x ∈ xs, ∀ (g : Nat) (r : List Char),
        parseValue (g + c + 1) (x.2 ++ r) = some (x.1, r)) →
      parseArrTail (f + (c + 2) * xs.length + 1) acc (arrTailText xs rest) =
        some (.arr (acc ++ xs.map (·.1)), rest) := by
  induction xs with
  | nil =>
    intro f acc rest _
    rw [show f + (c + 2) * List.length ([] : List (Json × List Char)) + 1 = f + 1
      from by simp]
    rw [show arrTailText [] rest = ']' :: rest from rfl]
    rw [parseArrTail.eq_def]
    simp only [skipWs_rbrack, if_pos rfl, if_true, List.map_nil, List.append_nil]
  | cons x xs ih =>
    intro f acc rest hval
    obtain ⟨v, txt⟩ := x
    have hv : ∀ (g : Nat) (r : List Char), parseValue (g + c + 1) (txt ++ r) = some (v, r) :=
      fun g r => hval (v, txt) (List.mem_cons_self _ _) g r
    rw [List.length_cons]
    rw [show f + (c + 2) * (xs.length + 1) + 1 = (f + (c + 2) * xs.length + c + 2) + 1
      from by ring]
    rw [show arrTailText ((v, txt) :: xs) rest = ',' :: (txt ++ arrTailText xs rest) from rfl]
    rw [parseArrTail.eq_def]
    simp only [skipWs_comma]
    rw [if_neg (show ¬(',' = ']') from by decide)]
    rw [show f + (c + 2) * xs.length + c + 2 = (f + (c + 2) * xs.length + 1) + c + 1
      from by ring]
    simp only [if_true, hv (f + (c + 2) * xs.length + 1)]
    rw [show (f + (c + 2) * xs.length + 1) + c + 1 = (f + c + 1) + (c + 2) * xs.length + 1
      from by ring]
    rw [ih (f + c + 1) (acc ++ [v]) rest (fun y hy => hval y (List.mem_cons_of_mem _ hy))]
    simp

/-- Printed text of a whole array value. -/
def arrText (elems : List (Json × List Char)) (rest : List Char) : List Char :=
  '[' :: (match elems with
          | [] => ']' :: rest
          | x :: xs => x.2 ++ arrTailText xs rest)

/-- Parsing a printed array whose elements are printed objects yields
its elements in order. -/
theorem parseValue_arrOf (c : Nat) (elems : List (Json × List Char)) (f : Nat)
    (rest : List Char)
    (hel : ∀ x ∈ elems, ∀ (g : Nat) (r : List Char),
      parseValue (g + c + 1) (x.2 ++ r) = some (x.1, r))
    (hhead : ∀ x ∈ elems, ∃ t, x.2 = lbrace :: t) :
    parseValue (f + (c + 2) * elems.length + 2) (arrText elems rest) =
      some (.arr (elems.map (·.1)), rest) := by
  cases elems with
  | nil =>
    rw [show f + (c + 2) * List.length ([] : List (Json × List Char)) + 2 = (f + 1) + 1
      from by simp]
    rw [show arrText [] rest = '[' :: (']' :: rest) from rfl]
    rw [parseValue.eq_def]
    simp only [skipWs_lbrack, skipWs_rbrack]
    rw [if_neg (show ¬('[' = lbrace) from by decide)]
    simp only [if_pos rfl, if_true, List.map_nil]
  | cons x xs =>
    obtain ⟨v, txt⟩ := x
    obtain ⟨t, ht⟩ := hhead (v, txt) (List.mem_cons_self _ _)
    have hv : ∀ (g : Nat) (r : List Char), parseValue (g + c + 1) (txt ++ r) = some (v, r) :=
      fun g r => hel (v, txt) (List.mem_cons_self _ _) g r
    rw [List.length_cons]
    rw [show f + (c + 2) * (xs.length + 1) + 2 = (f + (c + 2) * xs.length + c + 3) + 1
      from by ring]
    rw [show arrText ((v, txt) :: xs) rest = '[' :: (txt ++ arrTailText xs rest) from rfl]
    rw [parseValue.eq_def]
    simp only [skipWs_lbrack]
    rw [if_neg (show ¬('[' = lbrace) from by decide)]
    simp only [if_true]
    have ht2 : txt = lbrace :: t := ht
    rw [ht2]
    rw [show (lbrace :: t) ++ arrTailText xs rest = lbrace :: (t ++ arrTailText xs rest)
      from rfl]
    simp only [skipWs_lbrace]
    rw [if_neg (show ¬(lbrace = ']') from by decide)]
    rw [show lbrace :: (t ++ arrTailText xs rest) = (lbrace :: t) ++ arrTailText xs rest
      from rfl]
    rw [← ht2]
    rw [show f + (c + 2) * xs.length + c + 3 = (f + (c + 2) * xs.length + 2) + c + 1
      from by ring]
    simp only [hv (f + (c + 2) * xs.length + 2)]
    rw [show (f + (c + 2) * xs.length + 2) + c + 1 = (f + c + 2) + (c + 2) * xs.length + 1
      from by ring]
    rw [parseArrTail_chain c xs (f + c + 2) [v] rest
      (fun y hy => hel y (List.mem_cons_of_mem _ hy))]
    simp

/-- Parsing a printed node object recovers its three fields. -/
theorem parseValue_node (n : JNode) (f : Nat) (rest : List Char) :
    parseValue (f + 7) (strNodeCh n ++ rest) = some (nodeJson n, rest) := by
  have hshape : strNodeCh n ++ rest =
      objText ("id", .str n.id, quoteStr n.id)
        [("label", .str n.label, quoteStr n.label),
         ("tagColor", .str n.tagColor, quoteStr n.tagColor)] rest := by
    simp [strNodeCh, objText, memberTailText, quoteStr, List.append_assoc]
  rw [hshape]
  have h := parseValue_objOf 0 ("id", .str n.id, quoteStr n.id)
    [("label", .str n.label, quoteStr n.label),
     ("tagColor", .str n.tagColor, quoteStr n.tagColor)] f rest
    (fun g r => parseValue_str g n.id r)
    (by
      intro m hm g r
      rcases List.mem_cons.mp hm with h | hm2
      · rw [h]
        exact parseValue_str g n.label r
      · rcases List.mem_cons.mp hm2 with h | hm3
        · rw [h]
          exact parseValue_str g n.tagColor r
        · exact absurd hm3 (List.not_mem_nil m))
  simpa [nodeJson] using h

/-- Parsing a printed edge object recovers its three fields. -/
theorem parseValue_edge (e : SerEdge) (f : Nat) (rest : List Char) :
    parseValue (f + 7) (strEdgeCh e ++ rest) = some (edgeJson e, rest) := by
  have hshape : strEdgeCh e ++ rest =
      objText ("source", .str e.source, quoteStr e.source)
        [("target", .str e.target, quoteStr e.target),
         ("directed", .bool e.directed, boolCh e.directed)] rest := by
    simp [strEdgeCh, objText, memberTailText, quoteStr, List.append_assoc]
  rw [hshape]
  have h := parseValue_objOf 0 ("source", .str e.source, quoteStr e.source)
    [("target", .str e.target, quoteStr e.target),
     ("directed", .bool e.directed, boolCh e.directed)] f rest
    (fun g r => parseValue_str g e.source r)
    (by
      intro m hm g r
      rcases List.mem_cons.mp hm with h | hm2
      · rw [h]
        exact parseValue_str g e.target r
      · rcases List.mem_cons.mp hm2 with h | hm3
        · rw [h]
          exact parseValue_bool g e.directed r
        · exact absurd hm3 (List.not_mem_nil m))
  simpa [edgeJson] using h

/-- Appending past an array tail text lands in its rest. -/
theorem arrTailText_append (xs : List (Json × List Char)) (r1 r2 : List Char) :
    arrTailText xs r1 ++ r2 = arrTailText xs (r1 ++ r2) := by
  induction xs with
  | nil => rfl
  | cons x xs ih =>
    unfold arrTailText at *
    simp only [List.foldr_cons, List.cons_append, List.append_assoc, ih]

/-- Appending past a printed array lands in its rest. -/
theorem arrText_append (elems : List (Json × List Char)) (r1 r2 : List Char) :
    arrText elems r1 ++ r2 = arrText elems (r1 ++ r2) := by
  cases elems with
  | nil => rfl
  | cons x xs =>
    unfold arrText
    simp only [List.cons_append, List.append_assoc, arrTailText_append]

/-- The printer's array form is the standalone parsed-array text. -/
theorem arrCh_eq_arrText (elems : List (Json × List Char)) :
    arrCh (elems.map (·.2)) = arrText elems [] := by
  have haux : ∀ xs : List (Json × List Char),
      ((xs.map (·.2)).foldr (fun y acc => ',' :: y ++ acc) []) ++ [']'] =
        arrTailText xs [] := by
    intro xs
    induction xs with
    | nil => rfl
    | cons y ys ih =>
      unfold arrTailText at *
      simp only [List.map_cons, List.foldr_cons, List.cons_append, List.append_assoc]
      simp only [List.cons_append, List.append_assoc] at ih
      rw [ih]
  cases elems with
  | nil => rfl
  | cons x xs =>
    unfold arrCh arrText sepByComma
    simp only [List.map_cons, List.cons_append, List.append_assoc]
    have h2 := haux xs
    simp only [List.cons_append, List.append_assoc] at h2
    rw [h2]

/-- Parsing the printed array of node objects. -/
theorem parseValue_nodesArr (ns : List JNode) (f : Nat) (rest : List Char) :
    parseValue (f + 8 * ns.length + 2)
        (arrText (ns.map (fun n => (nodeJson n, strNodeCh n))) rest) =
      some (.arr (ns.map nodeJson), rest) := by
  have h := parseValue_arrOf 6 (ns.map fun n => (nodeJson n, strNodeCh n)) f rest
    (by
      intro x hx g r
      obtain ⟨n, _, rfl⟩ := List.mem_map.mp hx
      exact parseValue_node n g r)
    (by
      intro x hx
      obtain ⟨n, _, rfl⟩ := List.mem_map.mp hx
      exact ⟨_, rfl⟩)
  have hfuel : f + (6 + 2) * (ns.map fun n => (nodeJson n, strNodeCh n)).length + 2 =
      f + 8 * ns.length + 2 := by
    rw [List.length_map]
  rw [hfuel] at h
  rw [h]
  simp [List.map_map]

/-- Parsing the printed array of edge objects. -/
theorem parseValue_edgesArr (es : List SerEdge) (f : Nat) (rest : List Char) :
    parseValue (f + 8 * es.length + 2)
        (arrText (es.map (fun e => (edgeJson e, strEdgeCh e))) rest) =
      some (.arr (es.map edgeJson), rest) := by
  have h := parseValue_arrOf 6 (es.map fun e => (edgeJson e, strEdgeCh e)) f rest
    (by
      intro x hx g r
      obtain ⟨e, _, rfl⟩ := List.mem_map.mp hx
      exact parseValue_edge e g r)
    (by
      intro x hx
      obtain ⟨e, _, rfl⟩ := List.mem_map.mp hx
      exact ⟨_, rfl⟩)
  have hfuel : f + (6 + 2) * (es.map fun e => (edgeJson e, strEdgeCh e)).length + 2 =
      f + 8 * es.length + 2 := by
    rw [List.length_map]
  rw [hfuel] at h
  rw [h]
  simp [List.map_map]

/-- The `Json` value the whole serialized document parses back to. -/
def docJson (g : SerGraph) : Json :=
  .obj [("nodes", .arr (g.nodes.map nodeJson)), ("edges", .arr (g.edges.map edgeJson))]

/-- Parsing the whole printed document recovers its two arrays. -/
theorem parseValue_doc (g : SerGraph) (f : Nat) (rest : List Char) :
    parseValue (f + 16 * g.nodes.length + 16 * g.edges.length + 9) (docCh g ++ rest) =
      some (docJson g, rest) := by
  have hmapN : (g.nodes.map fun n => (nodeJson n, strNodeCh n)).map (fun x => x.2) =
      g.nodes.map strNodeCh := by
    simp [List.map_map]
  have hN := arrCh_eq_arrText (g.nodes.map fun n => (nodeJson n, strNodeCh n))
  rw [hmapN] at hN
  have hmapE : (g.edges.map fun e => (edgeJson e, strEdgeCh e)).map (fun x => x.2) =
      g.edges.map strEdgeCh := by
    simp [List.map_map]
  have hE := arrCh_eq_arrText (g.edges.map fun e => (edgeJson e, strEdgeCh e))
  rw [hmapE] at hE
  have hshape : docCh g ++ rest =
      objText ("nodes", .arr (g.nodes.map nodeJson),
          arrText (g.nodes.map fun n => (nodeJson n, strNodeCh n)) [])
        [("edges", .arr (g.edges.map edgeJson),
          arrText (g.edges.map fun e => (edgeJson e, strEdgeCh e)) [])] rest := by
    simp [docCh, objText, memberTailText, quoteStr, hN, hE, List.append_assoc]
  rw [hshape]
  have h0 : ∀ (q : Nat) (r : List Char),
      parseValue (q + (8 * g.nodes.length + 8 * g.edges.length + 2) + 1)
        (arrText (g.nodes.map fun n => (nodeJson n, strNodeCh n)) [] ++ r) =
        some (.arr (g.nodes.map nodeJson), r) := by
    intro q r
    rw [arrText_append, List.nil_append]
    rw [show q + (8 * g.nodes.length + 8 * g.edges.length + 2) + 1 =
        (q + 8 * g.edges.length + 1) + 8 * g.nodes.length + 2 from by ring]
    exact parseValue_nodesArr g.nodes (q + 8 * g.edges.length + 1) r
  have h1 : ∀ (q : Nat) (r : List Char),
      parseValue (q + (8 * g.nodes.length + 8 * g.edges.length + 2) + 1)
        (arrText (g.edges.map fun e => (edgeJson e, strEdgeCh e)) [] ++ r) =
        some (.arr (g.edges.map edgeJson), r) := by
    intro q r
    rw [arrText_append, List.nil_append]
    rw [show q + (8 * g.nodes.length + 8 * g.edges.length + 2) + 1 =
        (q + 8 * g.nodes.length + 1) + 8 * g.edges.length + 2 from by ring]
    exact parseValue_edgesArr g.edges (q + 8 * g.nodes.length + 1) r
  have h := parseValue_objOf (8 * g.nodes.length + 8 * g.edges.length + 2)
    ("nodes", .arr (g.nodes.map nodeJson),
      arrText (g.nodes.map fun n => (nodeJson n, strNodeCh n)) [])
    [("edges", .arr (g.edges.map edgeJson),
      arrText (g.edges.map fun e => (edgeJson e, strEdgeCh e)) [])] f rest h0
    (by
      intro m hm g' r
      rcases List.mem_cons.mp hm with h | hm2
      · rw [h]
        exact h1 g' r
      · exact absurd hm2 (List.not_mem_nil m))
  have hfuel : f + (8 * g.nodes.length + 8 * g.edges.length + 2 + 2) *
      (List.length [("edges", (Json.arr (g.edges.map edgeJson),
        arrText (g.edges.map fun e => (edgeJson e, strEdgeCh e)) []))] + 1) + 1 =
      f + 16 * g.nodes.length + 16 * g.edges.length + 9 := by
    simp only [List.length_cons, List.length_nil]
    ring
  rw [hfuel] at h
  rw [h]
  simp [docJson]

/-! ### Enough fuel: the document is longer than the fuel it needs -/

/-- Comma-separated lists of printed objects are at least 16 characters
per element. -/
theorem len_sepTail (xs : List (List Char)) (h : ∀ x ∈ xs, 16 ≤ x.length) :
    16 * xs.length ≤ (xs.foldr (fun y acc => ',' :: y ++ acc) []).length := by
  induction xs with
  | nil => simp
  | cons x ys ih =>
    simp only [List.foldr_cons, List.length_cons, List.cons_append, List.length_append]
    have hx := h x (List.mem_cons_self _ _)
    have hys := ih (fun y hy => h y (List.mem_cons_of_mem _ hy))
    simp only [List.cons_append, List.length_cons] at hys ⊢
    omega

/-- A printed array is at least 16 characters per element plus its
brackets. -/
theorem len_arrCh (xs : List (List Char)) (h : ∀ x ∈ xs, 16 ≤ x.length) :
    16 * xs.length + 2 ≤ (arrCh xs).length := by
  cases xs with
  | nil => simp [arrCh, sepByComma]
  | cons x ys =>
    have hx := h x (List.mem_cons_self _ _)
    have hys := len_sepTail ys (fun y hy => h y (List.mem_cons_of_mem _ hy))
    simp only [arrCh, sepByComma, List.length_cons, List.length_append]
    omega

/-- A printed node object is at least 16 characters. -/
theorem len_strNodeCh (n : JNode) : 16 ≤ (strNodeCh n).length := by
  simp only [strNodeCh, quoteStr, List.length_cons, List.length_append]
  omega

/-- A printed edge object is at least 16 characters. -/
theorem len_strEdgeCh (e : SerEdge) : 16 ≤ (strEdgeCh e).length := by
  cases hb : e.directed <;>
    simp only [strEdgeCh, quoteStr, boolCh, hb, if_true, if_false,
      List.length_cons, List.length_append] <;>
    omega

/-- The printed document is long enough to supply the fuel
`parseValue_doc` needs. -/
theorem len_docCh (g : SerGraph) :
    16 * g.nodes.length + 16 * g.edges.length + 8 ≤ (docCh g).length := by
  have hN := len_arrCh (g.nodes.map strNodeCh) (by
    intro x hx
    obtain ⟨n, _, rfl⟩ := List.mem_map.mp hx
    exact len_strNodeCh n)
  have hE := len_arrCh (g.edges.map strEdgeCh) (by
    intro x hx
    obtain ⟨e, _, rfl⟩ := List.mem_map.mp hx
    exact len_strEdgeCh e)
  rw [List.length_map] at hN hE
  have e1 : (escStr "nodes").length = 5 := rfl
  have e2 : (escStr "edges").length = 5 := rfl
  simp only [docCh, quoteStr, List.length_cons, List.length_append, e1, e2]
  omega

/-- `JSON.parse` recovers the serialized document from its printed
text. -/
theorem parseText_stringify (g : SerGraph) :
    parseText (stringifyGraph g) = some (docJson g) := by
  unfold parseText stringifyGraph
  rw [show (String.mk (docCh g)).data = docCh g from rfl]
  have hlen := len_docCh g
  have hsplit : (docCh g).length + 1 =
      ((docCh g).length + 1 - (16 * g.nodes.length + 16 * g.edges.length + 9)) +
        16 * g.nodes.length + 16 * g.edges.length + 9 := by omega
  rw [hsplit]
  have hd := parseValue_doc g
    ((docCh g).length + 1 - (16 * g.nodes.length + 16 * g.edges.length + 9)) []
  rw [List.append_nil] at hd
  rw [hd]
  rfl

/-! ### Reading the parsed arrays back at the declared type -/

/-- Decoding a serialized node record is the identity. -/
theorem decodeNode_nodeJson (n : JNode) : decodeNode (nodeJson n) = some n := rfl

/-- Decoding a serialized edge record keeps its fields, with
`directed` present. -/
theorem decodeEdge_edgeJson (e : SerEdge) :
    decodeEdge (edgeJson e) = some ⟨e.source, e.target, some e.directed⟩ := rfl

/-- Decoding all serialized node records is the identity
(accumulator form). -/
theorem mapM_decodeNode_loop (l : List JNode) :
    ∀ acc : List JNode,
      List.mapM.loop decodeNode (l.map nodeJson) acc = some (acc.reverse ++ l) := by
  induction l with
  | nil =>
    intro acc
    simp [List.mapM.loop]
  | cons n l ih =>
    intro acc
    simp [List.mapM.loop, decodeNode_nodeJson, ih]

/-- Decoding all serialized node records is the identity. -/
theorem mapM_decodeNode (l : List JNode) :
    (l.map nodeJson).mapM decodeNode = some l := by
  rw [show (l.map nodeJson).mapM decodeNode =
      List.mapM.loop decodeNode (l.map nodeJson) [] from rfl]
  rw [mapM_decodeNode_loop l []]
  simp

/-- Decoding all serialized edge records keeps their fields
(accumulator form). -/
theorem mapM_decodeEdge_loop (l : List SerEdge) :
    ∀ acc : List PEdge,
      List.mapM.loop decodeEdge (l.map edgeJson) acc =
        some (acc.reverse ++ l.map fun e => (⟨e.source, e.target, some e.directed⟩ : PEdge)) := by
  induction l with
  | nil =>
    intro acc
    simp [List.mapM.loop]
  | cons e l ih =>
    intro acc
    simp [List.mapM.loop, decodeEdge_edgeJson, ih]

/-- Decoding all serialized edge records keeps their fields. -/
theorem mapM_decodeEdge (l : List SerEdge) :
    (l.map edgeJson).mapM decodeEdge =
      some (l.map fun e => (⟨e.source, e.target, some e.directed⟩ : PEdge)) := by
  rw [show (l.map edgeJson).mapM decodeEdge =
      List.mapM.loop decodeEdge (l.map edgeJson) [] from rfl]
  rw [mapM_decodeEdge_loop l []]
  simp

/-- C1: the serialize→deserialize round trip.  Parsing the exact file
text `JSON.stringify` produces for `createGraphJson(nodes, edges)`
succeeds and yields arrays whose records carry exactly the input's
node ids, labels and tag colors, and the input's edge endpoints and
effective directedness (`edge.data?.directed ?? true`); reading those
arrays back at the declared `GraphJson` type recovers them
field-by-field. -/
theorem serialize_roundtrip (ns : List AppNode) (es : List AppEdge) :
    parseGraphJsonStr (stringifyGraph (createGraphJson ns es)) =
      .ok ⟨.arr ((createGraphJson ns es).nodes.map nodeJson),
           .arr ((createGraphJson ns es).edges.map edgeJson)⟩ ∧
    decodeGraphJson ⟨.arr ((createGraphJson ns es).nodes.map nodeJson),
           .arr ((createGraphJson ns es).edges.map edgeJson)⟩ =
      .ok ⟨ns.map (fun n => ⟨n.id, n.data.label, n.data.tagColor⟩),
           es.map (fun e => ⟨e.source, e.target, some (edgeDirected e)⟩)⟩ := by
  constructor
  · unfold parseGraphJsonStr
    rw [parseText_stringify]
    rfl
  · unfold decodeGraphJson
    simp only []
    rw [mapM_decodeNode ((createGraphJson ns es).nodes),
      mapM_decodeEdge ((createGraphJson ns es).edges)]
    simp only [createGraphJson, List.map_map]
    rfl

end GraphStudio
